import Mathlib

/-!
Verification development for the obsidian-blob-upload plugin.

The TypeScript sources are shallowly embedded: strings are handled through
their character lists so that every definition is structurally recursive and
computable by the kernel; the imperative tree-building loop of
src/blob-explorer.ts is expressed as a fold over pure insertion functions.
-/

set_option linter.unusedVariables false

namespace BlobUpload

/-! ## Character and string utilities

These model the JavaScript string primitives used by the plugin:
String.prototype.split("/"), Array.prototype.join("/"),
String.prototype.toLowerCase (for the ASCII letters that remain after
diacritic stripping), String.prototype.lastIndexOf(".") and the comparison
used by Array.prototype.sort.  localeCompare is modelled as code-point
lexicographic comparison (a fixed total order, which is all the sorting
logic relies on). -/

/-- Lexicographic comparison of character lists by code point; models the
total order induced by localeCompare on the names being sorted. -/
def charsLe : List Char → List Char → Bool
  | [], _ => true
  | _ :: _, [] => false
  | a :: as, b :: bs => if a = b then charsLe as bs else decide (a.toNat < b.toNat)

/-- String comparison used to model localeCompare-based sorting. -/
def strLe (a b : String) : Bool := charsLe a.data b.data

/-- Splitting a character list on the slash character, with the exact
semantics of JavaScript's String.prototype.split("/"): the empty string
yields one empty field, and adjacent separators yield empty fields. -/
def splitSlashChars : List Char → List (List Char)
  | [] => [[]]
  | c :: cs =>
    if c = '/' then [] :: splitSlashChars cs
    else
      match splitSlashChars cs with
      | [] => [[c]]
      | s :: ss => (c :: s) :: ss

/-- Model of pathname.split("/"). -/
def splitSlash (s : String) : List String :=
  (splitSlashChars s.data).map String.mk

/-- Model of Array.prototype.join("/") on a list of path segments. -/
def joinPath : List String → String
  | [] => ""
  | [x] => x
  | x :: xs => x ++ "/" ++ joinPath xs

/-- Inverse direction of the split, used to express the slice-up-to-last-slash
operation of buildBlobPathname. -/
def joinChars : List (List Char) → List Char
  | [] => []
  | [x] => x
  | x :: xs => x ++ '/' :: joinChars xs

/-- Folder part of a pathname: all slash-separated segments before the last
one.  This is what buildTree uses to place a file (parts.pop() removes the
final segment). -/
def dirParts (pathname : String) : List String :=
  (splitSlash pathname).dropLast

/-! ## slugify (src/utils.ts)

The source:
  const dot = filename.lastIndexOf(".");
  const name = dot > 0 ? filename.slice(0, dot) : filename;
  const ext = dot > 0 ? filename.slice(dot) : "";
  const slug = name.normalize("NFD").replace(combining-marks, "")
    .toLowerCase().replace(non-alphanumeric-runs, "-").replace(edge-hyphens, "");
  return slug + ext.toLowerCase();
-/

/-- Combining diacritical marks U+0300 to U+036F, the range removed by the
source's replace(/[̀-ͯ]/g, ""). -/
def isMarkChar (c : Char) : Bool := decide (0x300 ≤ c.toNat ∧ c.toNat ≤ 0x36F)

/-- Unicode NFD decomposition, modelled for the accented Latin letters this
development exercises; characters outside the table decompose to themselves.
The source calls String.prototype.normalize("NFD"). -/
def nfdChar (c : Char) : List Char :=
  if c = 'é' then ['e', '́'] else
  if c = 'É' then ['E', '́'] else
  if c = 'à' then ['a', '̀'] else
  if c = 'è' then ['e', '̀'] else
  if c = 'ü' then ['u', '̈'] else
  if c = 'ö' then ['o', '̈'] else
  if c = 'ç' then ['c', '̧'] else
  [c]

/-- NFD normalization of a character list. -/
def nfd (l : List Char) : List Char := (l.map nfdChar).flatten

/-- Model of toLowerCase, for the ASCII letters that remain relevant after
decomposition; other characters are unchanged (any remaining non-alphanumeric
character is turned into a hyphen by the next step anyway). -/
def lowerChar (c : Char) : Char :=
  if decide ('A' ≤ c) && decide (c ≤ 'Z') then Char.ofNat (c.toNat + 32) else c

/-- Characters kept by the slug body: lowercase ASCII letters and digits
(the class [a-z0-9] of the source's regex). -/
def isLowerAlnum (c : Char) : Bool :=
  (decide ('a' ≤ c) && decide (c ≤ 'z')) || (decide ('0' ≤ c) && decide (c ≤ '9'))

/-- Pointwise step of replace(/[^a-z0-9]+/g, "-"): every excluded character
becomes a hyphen. -/
def hyphenate (l : List Char) : List Char :=
  l.map fun c => if isLowerAlnum c then c else '-'

/-- Collapse runs of hyphens to a single hyphen; together with hyphenate this
is exactly the action of replace(/[^a-z0-9]+/g, "-"), since every character
of a matched run has been mapped to a hyphen. -/
def squeezeHyphens : List Char → List Char
  | [] => []
  | [c] => [c]
  | c :: d :: rest =>
    if c = '-' && d = '-' then squeezeHyphens (d :: rest)
    else c :: squeezeHyphens (d :: rest)

/-- Model of replace(/^-+|-+$/g, ""): drop leading and trailing hyphens. -/
def trimHyphens (l : List Char) : List Char :=
  (((l.dropWhile (· == '-')).reverse.dropWhile (· == '-')).reverse)

/-- Index of the last dot in a character list, as in lastIndexOf("."). -/
def lastDotIdx : List Char → Option Nat
  | [] => none
  | c :: cs =>
    match lastDotIdx cs with
    | some i => some (i + 1)
    | none => if c = '.' then some 0 else none

/-- Slug transformation of the base name: NFD, strip combining marks,
lowercase, collapse non-alphanumeric runs to single hyphens, trim edge
hyphens. -/
def slugBody (l : List Char) : List Char :=
  trimHyphens (squeezeHyphens (hyphenate (((nfd l).filter fun c => !(isMarkChar c)).map lowerChar)))

/-- slugify from src/utils.ts.  The extension starts at the last dot and is
kept (lowercased) only when that dot exists at a positive index. -/
def slugify (s : String) : String :=
  let l := s.data
  match lastDotIdx l with
  | some i =>
    if 0 < i then String.mk (slugBody (l.take i) ++ (l.drop i).map lowerChar)
    else String.mk (slugBody l)
  | none => String.mk (slugBody l)

/-! ## Data model (src/uploader.ts) -/

/-- RemoteObject / BlobEntry: one stored blob as returned by the list API. -/
structure BlobEntry where
  url : String
  pathname : String
  size : Nat
  uploadedAt : String
deriving DecidableEq

/-- One page of the list response. -/
structure BlobListResult where
  blobs : List BlobEntry
  cursor : Option String
  hasMore : Bool
deriving DecidableEq

/-! ## The folder tree (src/blob-explorer.ts) -/

/-- TreeFolder from src/blob-explorer.ts: a synthetic directory node. -/
inductive TreeFolder where
  | mk (name : String) (children : List TreeFolder) (files : List BlobEntry)

/-- Projection: folder name. -/
def TreeFolder.name : TreeFolder → String
  | .mk n _ _ => n

/-- Projection: child folders. -/
def TreeFolder.children : TreeFolder → List TreeFolder
  | .mk _ cs _ => cs

/-- Projection: files stored directly in this folder. -/
def TreeFolder.files : TreeFolder → List BlobEntry
  | .mk _ _ fs => fs

mutual
/-- Insertion step of buildTree: walk (and create on miss) the folder chain
given by the path segments, then append the blob to the files of the final
node.  Mirrors the interior of the for-loop of buildTree. -/
def insertBlob : TreeFolder → List String → BlobEntry → TreeFolder
  | .mk n cs fs, [], b => .mk n cs (fs ++ [b])
  | .mk n cs fs, p :: ps, b => .mk n (insertChild cs p ps b) fs
termination_by t ps b => (ps.length, 0)

/-- Walk the children list: descend into the first child whose name matches
the segment, or append a fresh node when none matches (create-on-miss,
preserving the order of existing children). -/
def insertChild : List TreeFolder → String → List String → BlobEntry → List TreeFolder
  | [], p, ps, b => [insertBlob (.mk p [] []) ps b]
  | c :: cs, p, ps, b =>
    if c.name = p then insertBlob c ps b :: cs
    else c :: insertChild cs p ps b
termination_by cs p ps b => (ps.length, cs.length + 1)
end

/-- Insertion of one blob at the position determined by its pathname:
the folder chain is every slash-separated segment but the last. -/
def insertEntry (t : TreeFolder) (b : BlobEntry) : TreeFolder :=
  insertBlob t (dirParts b.pathname) b

/-- The tree after the insertion loop of buildTree, before sorting. -/
def preTree (blobs : List BlobEntry) : TreeFolder :=
  blobs.foldl insertEntry (.mk "" [] [])

/-- Insertion into a list kept ordered by le; places the new element before
the first element le-greater-or-equal to it (a stable insertion). -/
def ordIns (le : α → α → Bool) (a : α) : List α → List α
  | [] => [a]
  | b :: l => if le a b then a :: b :: l else b :: ordIns le a l

/-- Stable insertion sort; models the (stable) Array.prototype.sort. -/
def insSort (le : α → α → Bool) : List α → List α
  | [] => []
  | a :: l => ordIns le a (insSort le l)

/-- Comparator of the sortTree children sort: by folder name. -/
def childLe (a b : TreeFolder) : Bool := strLe a.name b.name

/-- Comparator of the sortTree files sort: by full pathname. -/
def fileLe (a b : BlobEntry) : Bool := strLe a.pathname b.pathname

mutual
/-- The recursive sortTree of buildTree: sort every node's children by name
and files by pathname.  (The source sorts the children array and then
recurses into each child; since sorting compares only names, which the
recursion preserves, recursing first and then sorting yields the same
tree.) -/
def sortTree : TreeFolder → TreeFolder
  | .mk n cs fs => .mk n (insSort childLe (sortTreeList cs)) (insSort fileLe fs)

/-- sortTree mapped over a list of children. -/
def sortTreeList : List TreeFolder → List TreeFolder
  | [] => []
  | c :: cs => sortTree c :: sortTreeList cs
end

/-- buildTree from src/blob-explorer.ts: insert every blob along its folder
chain into an empty root, then recursively sort. -/
def buildTree (blobs : List BlobEntry) : TreeFolder :=
  sortTree (preTree blobs)

mutual
/-- countFiles from src/blob-explorer.ts: own file count plus the recursive
sum over children. -/
def countFiles : TreeFolder → Nat
  | .mk _ cs fs => fs.length + countFilesList cs

/-- Sum of countFiles over a children list. -/
def countFilesList : List TreeFolder → Nat
  | [] => 0
  | c :: cs => countFiles c + countFilesList cs
end

mutual
/-- All blobs reachable from a node by depth-first traversal of the files
fields. -/
def allFiles : TreeFolder → List BlobEntry
  | .mk _ cs fs => fs ++ allFilesList cs

/-- Depth-first collection over a children list. -/
def allFilesList : List TreeFolder → List BlobEntry
  | [] => []
  | c :: cs => allFiles c ++ allFilesList cs
end

/-- The files stored at the node addressed by a segment path (empty when the
path does not resolve); segment lookup is by exact name, as in the explorer's
walks over children. -/
def filesAt : TreeFolder → List String → List BlobEntry
  | t, [] => t.files
  | t, p :: ps =>
    match t.children.find? (fun c => c.name = p) with
    | some c => filesAt c ps
    | none => []

/-! ## Navigation state helpers (src/blob-explorer.ts) -/

/-- computeBasePath: descend from the root while the current node has exactly
one child folder and zero files, accumulating the names of the nodes entered
(the smart root). -/
def computeBasePath : TreeFolder → List String
  | .mk n cs fs =>
    match cs, fs with
    | [c], [] => c.name :: computeBasePath c
    | _, _ => []
termination_by t => t
decreasing_by simp_wf; omega

/-- isPathValid restricted to a present tree: walk from the root following
each segment by name match; valid iff every segment resolves. -/
def pathValidIn : TreeFolder → List String → Bool
  | _, [] => true
  | t, p :: ps =>
    match t.children.find? (fun c => c.name = p) with
    | some c => pathValidIn c ps
    | none => false

/-- isPathValid from BlobExplorerView: false when no tree is stored. -/
def isPathValid (root : Option TreeFolder) (path : List String) : Bool :=
  match root with
  | none => false
  | some t => pathValidIn t path

/-! ## Object store client: pagination (src/uploader.ts listBlobs)

The server is modelled as the finite sequence of responses it hands back:
the i-th request made by the loop receives the i-th element.  The do/while
loop appends each page's blobs, then stops when the page reports no-more
(regardless of its cursor) and otherwise continues only when a cursor is
present. -/

/-- listBlobs from src/uploader.ts over a finite response sequence. -/
def listBlobs : List BlobListResult → List BlobEntry
  | [] => []
  | page :: rest =>
    page.blobs ++
      (if page.hasMore then
        match page.cursor with
        | some _ => listBlobs rest
        | none => []
      else [])

/-- Modelled from the spec: the pages the loop consumes.  The first response
is always consumed; a further page is consumed only while the previous
response had hasMore true and a cursor. -/
def specConsumedPages : List BlobListResult → List BlobListResult
  | [] => []
  | page :: rest =>
    page :: (if page.hasMore && page.cursor.isSome then specConsumedPages rest else [])

/-! ## Destination pathnames (src/utils.ts buildBlobPathname) -/

/-- buildBlobPathname from src/utils.ts.  The folder of the active note is
everything before the last slash (expressed here as rejoining all but the
last slash-separated segment, which is the same string); empty parts are
dropped by filter(Boolean). -/
def buildBlobPathname (basePfx activeFilePath filename : String) : String :=
  let folder := if '/' ∈ activeFilePath.data then
      joinPath (splitSlash activeFilePath).dropLast
    else ""
  joinPath (([basePfx, folder, filename]).filter fun s => s ≠ "")

/-! ## Upload orchestration (src/blob-explorer.ts handleDrop)

handleDrop is embedded as a pure function from the dropped files, the target
path, the settings and an oracle giving each upload attempt's outcome, to the
list of observable effects (notices, upload requests, listing refreshes) in
the order they are issued. -/

/-- The settings fields handleDrop reads.  basePfx is the source's
basePathPrefix setting. -/
structure DropSettings where
  token : String
  maxFileSizeMB : Nat
  slugifyFilenames : Bool
  basePfx : String
deriving DecidableEq

/-- A dropped file: name and size in bytes. -/
structure DropFile where
  fname : String
  size : Nat
deriving DecidableEq

/-- Observable effects of handleDrop, in order of occurrence. -/
inductive DropEvent where
  | notice (msg : String)
  | upload (pathname : String) (filename : String)
  | refresh
deriving DecidableEq

/-- The size check of the loop: file.size > maxFileSizeMB * 1024 * 1024. -/
def oversized (s : DropSettings) (f : DropFile) : Bool :=
  decide (s.maxFileSizeMB * 1024 * 1024 < f.size)

/-- Destination filename: slugified when the setting is on. -/
def dropFilename (s : DropSettings) (f : DropFile) : String :=
  if s.slugifyFilenames then slugify f.fname else f.fname

/-- Destination pathname of handleDrop: the target path joined with the
filename when the target path is non-empty (JavaScript truthiness of the
string), otherwise derived from the configured base path setting by
buildBlobPathname with no active file. -/
def dropPathname (s : DropSettings) (targetPath filename : String) : String :=
  if targetPath ≠ "" then joinPath [targetPath, filename]
  else buildBlobPathname s.basePfx "" filename

/-- Per-file loop of handleDrop: files are processed strictly sequentially;
an oversized file is reported and skipped; otherwise the destination pathname
is derived and the upload attempted, with the outcome of attempt i given by
the oracle.  Returns the events of the loop and the final success counter. -/
def handleDropLoop (s : DropSettings) (targetPath : String)
    (res : Nat → Except String Unit) :
    List DropFile → Nat → Nat → List DropEvent × Nat
  | [], _, uploaded => ([], uploaded)
  | f :: rest, i, uploaded =>
    if oversized s f then
      let r := handleDropLoop s targetPath res rest (i + 1) uploaded
      (.notice ("\"" ++ f.fname ++ "\" exceeds " ++ toString s.maxFileSizeMB ++ " MB limit") :: r.1,
       r.2)
    else
      let filename := dropFilename s f
      let pathname := dropPathname s targetPath filename
      match res i with
      | .ok _ =>
        let r := handleDropLoop s targetPath res rest (i + 1) (uploaded + 1)
        (.notice ("Uploading " ++ filename ++ "...") :: .upload pathname filename :: r.1, r.2)
      | .error msg =>
        let r := handleDropLoop s targetPath res rest (i + 1) uploaded
        (.notice ("Uploading " ++ filename ++ "...") ::
          .notice ("Failed to upload \"" ++ f.fname ++ "\": " ++ msg) :: r.1, r.2)

/-- Number of files of the batch that upload successfully: not oversized and
accepted by the oracle, attempts numbered from i. -/
def countUploads (s : DropSettings) (res : Nat → Except String Unit) :
    List DropFile → Nat → Nat
  | [], _ => 0
  | f :: rest, i =>
    if oversized s f then countUploads s res rest (i + 1)
    else (match res i with | .ok _ => 1 | .error _ => 0) + countUploads s res rest (i + 1)

/-- The upload requests the loop is expected to issue, in order: one per
file that is not oversized and whose attempt succeeds, with the derived
pathname and filename. -/
def specUploads (s : DropSettings) (targetPath : String)
    (res : Nat → Except String Unit) : List DropFile → Nat → List DropEvent
  | [], _ => []
  | f :: rest, i =>
    if oversized s f then specUploads s targetPath res rest (i + 1)
    else
      match res i with
      | .ok _ => .upload (dropPathname s targetPath (dropFilename s f)) (dropFilename s f)
          :: specUploads s targetPath res rest (i + 1)
      | .error _ => specUploads s targetPath res rest (i + 1)

/-- Recognizer for upload events. -/
def isUploadEvent : DropEvent → Bool
  | .upload _ _ => true
  | _ => false

/-- handleDrop from src/blob-explorer.ts: short-circuit on a missing token;
process the batch; afterwards, only when at least one upload succeeded, issue
the aggregate notice and a single refresh. -/
def handleDrop (s : DropSettings) (files : List DropFile) (targetPath : String)
    (res : Nat → Except String Unit) : List DropEvent :=
  if s.token = "" then [.notice "Blob token not configured"]
  else
    let r := handleDropLoop s targetPath res files 0 0
    if 0 < r.2 then
      r.1 ++ [.notice ("Uploaded " ++ toString r.2 ++ " file(s)"), .refresh]
    else r.1

/-! ## Refresh (src/blob-explorer.ts BlobExplorerView.refresh)

The view state is the four fields refresh can write; the DOM effect is
abstracted to which placeholder (if any) replaces the content area.  The
assignments of the source happen only after the awaited list call returns,
so on a failed list call every stored field keeps its previous value. -/

/-- Stored state of BlobExplorerView that refresh reads and writes. -/
structure ExplorerState where
  blobs : List BlobEntry
  treeRoot : Option TreeFolder
  basePath : List String
  currentPath : List String

/-- What refresh leaves in the content area. -/
inductive RefreshDisplay where
  | emptyMsg (msg : String)
  | content
deriving DecidableEq

/-- refresh from src/blob-explorer.ts: missing token short-circuits with a
message; a failed list call leaves the state untouched and shows the failure
placeholder; a successful one installs the new blobs, tree and base path and
revalidates the current path against the new tree. -/
def refresh (token : String) (st : ExplorerState)
    (listResult : Except String (List BlobEntry)) : ExplorerState × RefreshDisplay :=
  if token = "" then (st, .emptyMsg "Configure your Blob token in settings")
  else
    match listResult with
    | .error msg => (st, .emptyMsg ("Failed to load: " ++ msg))
    | .ok blobs =>
      let tree := buildTree blobs
      let base := computeBasePath tree
      let cur := if pathValidIn tree st.currentPath then st.currentPath else base
      ({ blobs := blobs, treeRoot := some tree, basePath := base, currentPath := cur },
       .content)

/-! ## Well-formedness, equivalence and sortedness predicates on trees -/

/-- Every node of the tree has pairwise-distinct child names.  The insertion
loop maintains this: it only creates a child when no child of that name
exists. -/
inductive WfTree : TreeFolder → Prop where
  | mk {n : String} {cs : List TreeFolder} {fs : List BlobEntry} :
      (cs.map TreeFolder.name).Nodup → (∀ c ∈ cs, WfTree c) →
      WfTree (.mk n cs fs)

/-- Two trees are equivalent when they have the same name, files equal as
multisets, the same multiset of child names, and equivalent children
whenever the names match.  This is structural equality up to the ordering
that sortTree normalizes away. -/
inductive TEquiv : TreeFolder → TreeFolder → Prop where
  | mk {n : String} {cs₁ cs₂ : List TreeFolder} {fs₁ fs₂ : List BlobEntry} :
      fs₁.Perm fs₂ →
      (cs₁.map TreeFolder.name).Perm (cs₂.map TreeFolder.name) →
      (∀ c₁ ∈ cs₁, ∀ c₂ ∈ cs₂, c₁.name = c₂.name → TEquiv c₁ c₂) →
      TEquiv (.mk n cs₁ fs₁) (.mk n cs₂ fs₂)

/-- Every node's children are sorted by name and files by full pathname
(with respect to the modelled localeCompare order). -/
inductive SortedTree : TreeFolder → Prop where
  | mk {n : String} {cs : List TreeFolder} {fs : List BlobEntry} :
      cs.Pairwise (fun a b => childLe a b = true) →
      fs.Pairwise (fun a b => fileLe a b = true) →
      (∀ c ∈ cs, SortedTree c) →
      SortedTree (.mk n cs fs)

/-- Conjunction of observable properties of one handleDrop run with a
configured token, used to state the batch-upload claim: the events are the
per-file loop events followed, only when at least one upload succeeded, by
the aggregate notice and a single refresh; the refresh count matches; the
upload requests issued are exactly those of the non-oversized successful
files with their derived pathnames; and every oversized file gets its
per-file rejection notice. -/
def C3Spec (s : DropSettings) (files : List DropFile) (tp : String)
    (res : Nat → Except String Unit) : Prop :=
  handleDrop s files tp res =
    (handleDropLoop s tp res files 0 0).1 ++
      (if 0 < countUploads s res files 0 then
        [DropEvent.notice ("Uploaded " ++ toString (countUploads s res files 0) ++ " file(s)"),
         DropEvent.refresh]
       else []) ∧
  (handleDrop s files tp res).count DropEvent.refresh
    = (if 0 < countUploads s res files 0 then 1 else 0) ∧
  (handleDropLoop s tp res files 0 0).1.filter isUploadEvent = specUploads s tp res files 0 ∧
  (∀ f ∈ files, oversized s f = true →
    DropEvent.notice ("\"" ++ f.fname ++ "\" exceeds " ++ toString s.maxFileSizeMB
      ++ " MB limit") ∈ (handleDropLoop s tp res files 0 0).1)

/-! # Theorems -/

@[simp] theorem TreeFolder.name_mk (n : String) (cs : List TreeFolder)
    (fs : List BlobEntry) : (TreeFolder.mk n cs fs).name = n := rfl

@[simp] theorem TreeFolder.children_mk (n : String) (cs : List TreeFolder)
    (fs : List BlobEntry) : (TreeFolder.mk n cs fs).children = cs := rfl

@[simp] theorem TreeFolder.files_mk (n : String) (cs : List TreeFolder)
    (fs : List BlobEntry) : (TreeFolder.mk n cs fs).files = fs := rfl

/-- Structural induction over the nested inductive, with the hypothesis
available for every member of the children list. -/
theorem TreeFolder.ind (P : TreeFolder → Prop)
    (h : ∀ n cs fs, (∀ c ∈ cs, P c) → P (TreeFolder.mk n cs fs)) :
    ∀ t, P t :=
  @TreeFolder.rec P (fun cs => ∀ c ∈ cs, P c)
    (fun n cs fs ih => h n cs fs ih)
    (fun c hc => absurd hc (List.not_mem_nil c))
    (fun hd tl ihh iht c hc => by
      rcases List.mem_cons.mp hc with h' | h'
      · exact h' ▸ ihh
      · exact iht c h')

/-! ## The comparison order -/

theorem charToNat_inj {a b : Char} (h : a.toNat = b.toNat) : a = b :=
  Char.ext (UInt32.ext h)

theorem charsLe_total : ∀ a b : List Char, charsLe a b = true ∨ charsLe b a = true
  | [], _ => Or.inl rfl
  | _ :: _, [] => Or.inr rfl
  | a :: as, b :: bs => by
    by_cases hab : a = b
    · subst hab
      simpa [charsLe] using charsLe_total as bs
    · have hba : b ≠ a := fun h => hab h.symm
      have : a.toNat ≠ b.toNat := fun h => hab (charToNat_inj h)
      rcases Nat.lt_or_ge a.toNat b.toNat with h | h
      · exact Or.inl (by simp [charsLe, hab, h])
      · have : b.toNat < a.toNat := Nat.lt_of_le_of_ne h (fun e => this e.symm)
        exact Or.inr (by simp [charsLe, hba, this])

theorem charsLe_antisymm : ∀ a b : List Char,
    charsLe a b = true → charsLe b a = true → a = b
  | [], [], _, _ => rfl
  | [], _ :: _, _, h => by simp [charsLe] at h
  | _ :: _, [], h, _ => by simp [charsLe] at h
  | a :: as, b :: bs, h₁, h₂ => by
    by_cases hab : a = b
    · subst hab
      simp only [charsLe, if_pos rfl] at h₁ h₂
      exact congrArg (a :: ·) (charsLe_antisymm as bs h₁ h₂)
    · have hba : b ≠ a := fun h => hab h.symm
      simp only [charsLe, if_neg hab, decide_eq_true_eq] at h₁
      simp only [charsLe, if_neg hba, decide_eq_true_eq] at h₂
      exact absurd h₂ (Nat.lt_asymm h₁)

theorem charsLe_trans : ∀ a b c : List Char,
    charsLe a b = true → charsLe b c = true → charsLe a c = true
  | [], _, _, _, _ => rfl
  | _ :: _, [], _, h, _ => by simp [charsLe] at h
  | _ :: _, _ :: _, [], _, h => by simp [charsLe] at h
  | a :: as, b :: bs, c :: cs, h₁, h₂ => by
    by_cases hab : a = b
    · subst hab
      by_cases hac : a = c
      · subst hac
        simp only [charsLe, if_pos rfl] at h₁ h₂ ⊢
        exact charsLe_trans as bs cs h₁ h₂
      · simp only [charsLe, if_pos rfl] at h₁
        simp only [charsLe, if_neg hac] at h₂ ⊢
        exact h₂
    · simp only [charsLe, if_neg hab, decide_eq_true_eq] at h₁
      by_cases hbc : b = c
      · subst hbc
        simp only [charsLe, if_neg hab, decide_eq_true_eq]
        exact h₁
      · simp only [charsLe, if_neg hbc, decide_eq_true_eq] at h₂
        have hlt : a.toNat < c.toNat := Nat.lt_trans h₁ h₂
        have hac : a ≠ c := fun e => Nat.lt_irrefl _ (e ▸ hlt)
        simp only [charsLe, if_neg hac, decide_eq_true_eq]
        exact hlt

theorem strLe_total (a b : String) : strLe a b = true ∨ strLe b a = true :=
  charsLe_total a.data b.data

theorem strLe_antisymm {a b : String} (h₁ : strLe a b = true) (h₂ : strLe b a = true) :
    a = b :=
  String.ext (charsLe_antisymm a.data b.data h₁ h₂)

theorem strLe_trans {a b c : String} (h₁ : strLe a b = true) (h₂ : strLe b c = true) :
    strLe a c = true :=
  charsLe_trans a.data b.data c.data h₁ h₂

/-! ## Insertion sort -/

theorem ordIns_perm (le : α → α → Bool) (a : α) :
    ∀ l : List α, (ordIns le a l).Perm (a :: l)
  | [] => List.Perm.refl _
  | b :: l => by
    by_cases h : le a b = true
    · simp [ordIns, h]
    · simp only [ordIns, if_neg h]
      exact ((ordIns_perm le a l).cons b).trans (List.Perm.swap a b l)

theorem insSort_perm (le : α → α → Bool) : ∀ l : List α, (insSort le l).Perm l
  | [] => List.Perm.refl _
  | a :: l => ((ordIns_perm le a (insSort le l)).trans ((insSort_perm le l).cons a))

theorem mem_ordIns {le : α → α → Bool} {a x : α} {l : List α} :
    x ∈ ordIns le a l → x = a ∨ x ∈ l := by
  intro h
  have := (ordIns_perm le a l).subset h
  simpa using this

theorem pairwise_ordIns {le : α → α → Bool}
    (htr : ∀ x y z, le x y = true → le y z = true → le x z = true)
    (hto : ∀ x y, le x y = true ∨ le y x = true) (a : α) :
    ∀ {l : List α}, l.Pairwise (fun x y => le x y = true) →
      (ordIns le a l).Pairwise (fun x y => le x y = true)
  | [], _ => by simp [ordIns]
  | b :: l, hp => by
    rcases List.pairwise_cons.mp hp with ⟨hb, hl⟩
    by_cases h : le a b = true
    · simp only [ordIns, if_pos h]
      refine List.pairwise_cons.mpr ⟨?_, hp⟩
      intro x hx
      rcases List.mem_cons.mp hx with rfl | hx
      · exact h
      · exact htr a b x h (hb x hx)
    · simp only [ordIns, if_neg h]
      refine List.pairwise_cons.mpr ⟨?_, pairwise_ordIns htr hto a hl⟩
      intro x hx
      rcases mem_ordIns hx with rfl | hx
      · rcases hto x b with h' | h'
        · exact absurd h' h
        · exact h'
      · exact hb x hx

theorem insSort_pairwise {le : α → α → Bool}
    (htr : ∀ x y z, le x y = true → le y z = true → le x z = true)
    (hto : ∀ x y, le x y = true ∨ le y x = true) :
    ∀ l : List α, (insSort le l).Pairwise (fun x y => le x y = true)
  | [] => List.Pairwise.nil
  | a :: l => pairwise_ordIns htr hto a (insSort_pairwise htr hto l)

/-- Two lists that are permutations of each other, both sorted by a string
key, with pairwise-distinct keys, are equal. -/
theorem sorted_unique (key : α → String) :
    ∀ {l₁ l₂ : List α}, l₁.Perm l₂ →
      l₁.Pairwise (fun a b => strLe (key a) (key b) = true) →
      l₂.Pairwise (fun a b => strLe (key a) (key b) = true) →
      (l₁.map key).Nodup → l₁ = l₂
  | [], l₂, hp, _, _, _ => hp.nil_eq
  | a :: t₁, l₂, hp, hs₁, hs₂, hn => by
    match l₂ with
    | [] => exact absurd hp.symm (by simp)
    | b :: t₂ =>
      have hn' : (key a :: t₁.map key).Nodup := by simpa using hn
      by_cases hab : a = b
      · subst hab
        rcases List.pairwise_cons.mp hs₁ with ⟨_, hs₁'⟩
        rcases List.pairwise_cons.mp hs₂ with ⟨_, hs₂'⟩
        have := sorted_unique key hp.cons_inv hs₁' hs₂' hn'.of_cons
        exact congrArg (a :: ·) this
      · exfalso
        have hbmem : b ∈ t₁ := by
          have : b ∈ a :: t₁ := hp.symm.subset (List.mem_cons_self b t₂)
          rcases List.mem_cons.mp this with h | h
          · exact absurd h.symm hab
          · exact h
        have hamem : a ∈ t₂ := by
          have : a ∈ b :: t₂ := hp.subset (List.mem_cons_self a t₁)
          rcases List.mem_cons.mp this with h | h
          · exact absurd h hab
          · exact h
        have h₁ : strLe (key a) (key b) = true :=
          (List.pairwise_cons.mp hs₁).1 b hbmem
        have h₂ : strLe (key b) (key a) = true :=
          (List.pairwise_cons.mp hs₂).1 a hamem
        have hkey : key a = key b := strLe_antisymm h₁ h₂
        have : key a ∉ t₁.map key := (List.nodup_cons.mp hn').1
        exact this (hkey ▸ List.mem_map_of_mem key hbmem)

/-- Mapping two keyed lists with the same nodup key multiset through a
function that agrees on key-matched elements yields permuted results. -/
theorem map_perm_of_keyed (key : α → String) (f : α → β) :
    ∀ {l₁ l₂ : List α}, (l₁.map key).Perm (l₂.map key) → (l₁.map key).Nodup →
      (∀ x₁ ∈ l₁, ∀ x₂ ∈ l₂, key x₁ = key x₂ → f x₁ = f x₂) →
      (l₁.map f).Perm (l₂.map f)
  | [], l₂, hp, _, _ => by
    have h₀ : l₂.map key = [] := hp.nil_eq.symm
    have : l₂ = [] := List.map_eq_nil_iff.mp h₀
    simp [this]
  | a :: t₁, l₂, hp, hn, hf => by
    have hmem : key a ∈ l₂.map key := hp.subset (by simp)
    rcases List.mem_map.mp hmem with ⟨x₂, hx₂, hkey⟩
    rcases List.append_of_mem hx₂ with ⟨u, v, rfl⟩
    have hn' : (key a :: t₁.map key).Nodup := by simpa using hn
    have hfx : f x₂ = f a := (hf a (by simp) x₂ hx₂ hkey.symm).symm
    have hkeys : (t₁.map key).Perm ((u ++ v).map key) := by
      have h₁ : ((u ++ x₂ :: v).map key).Perm (key x₂ :: (u ++ v).map key) := by
        simp only [List.map_append, List.map_cons]
        exact List.perm_middle
      have hp' : (key a :: t₁.map key).Perm ((u ++ x₂ :: v).map key) := by
        simpa using hp
      have h₂ := hp'.trans h₁
      rw [← hkey] at h₂
      exact h₂.cons_inv
    have ih : (t₁.map f).Perm ((u ++ v).map f) :=
      map_perm_of_keyed key f hkeys hn'.of_cons
        (fun x₁ h₁ x₂' h₂' he =>
          hf x₁ (List.mem_cons_of_mem a h₁) x₂'
            (by
              rcases List.mem_append.mp h₂' with h | h
              · exact List.mem_append.mpr (Or.inl h)
              · exact List.mem_append.mpr (Or.inr (List.mem_cons_of_mem _ h))) he)
    have step₁ : ((a :: t₁).map f).Perm (f a :: (u ++ v).map f) := by
      simpa using ih.cons (f a)
    have step₂ : (f a :: (u ++ v).map f).Perm ((u ++ x₂ :: v).map f) := by
      rw [← hfx]
      simpa using (List.perm_middle).symm
    exact step₁.trans step₂

/-! ## Children lookup by name -/

theorem find?_name_eq_none {cs : List TreeFolder} {p : String} :
    cs.find? (fun c => c.name = p) = none ↔ p ∉ cs.map TreeFolder.name := by
  rw [List.find?_eq_none]
  constructor
  · intro h hmem
    rcases List.mem_map.mp hmem with ⟨c, hc, hname⟩
    exact h c hc (by simp [hname])
  · intro h c hc
    simp only [decide_eq_true_eq]
    intro he
    exact h (he ▸ List.mem_map_of_mem _ hc)

theorem find?_name_of_mem {cs : List TreeFolder} {c : TreeFolder} {p : String}
    (hn : (cs.map TreeFolder.name).Nodup) (hc : c ∈ cs) (hp : c.name = p) :
    cs.find? (fun x => x.name = p) = some c := by
  induction cs with
  | nil => cases hc
  | cons d cs ih =>
    have hcons : (d.name :: cs.map TreeFolder.name).Nodup := by simpa using hn
    have hn' := List.nodup_cons.mp hcons
    rcases List.mem_cons.mp hc with rfl | hc'
    · simp [List.find?, hp]
    · have hd : (d.name = p) = False := by
        simp only [eq_iff_iff, iff_false]
        intro he
        exact hn'.1 (by
          have : c.name ∈ cs.map TreeFolder.name := List.mem_map_of_mem _ hc'
          rw [hp, ← he] at this
          exact this)
      simp only [List.find?, hd, decide_False]
      exact ih hn'.2 hc'

theorem exists_first_name {cs : List TreeFolder} {p : String}
    (h : p ∈ cs.map TreeFolder.name) :
    ∃ pre c post, cs = pre ++ c :: post ∧ p ∉ pre.map TreeFolder.name ∧ c.name = p := by
  induction cs with
  | nil => simp at h
  | cons d cs ih =>
    by_cases hd : d.name = p
    · exact ⟨[], d, cs, rfl, by simp, hd⟩
    · have h' : p ∈ cs.map TreeFolder.name := by
        simp only [List.map_cons, List.mem_cons] at h
        rcases h with h | h
        · exact absurd h.symm hd
        · exact h
      rcases ih h' with ⟨pre, c, post, heq, hpre, hc⟩
      refine ⟨d :: pre, c, post, by rw [heq]; rfl, ?_, hc⟩
      simp only [List.map_cons, List.mem_cons]
      rintro (he | he)
      · exact hd he.symm
      · exact hpre he

/-! ## The insertion loop -/

theorem name_insertBlob (t : TreeFolder) (ps : List String) (b : BlobEntry) :
    (insertBlob t ps b).name = t.name := by
  cases t with
  | mk n cs fs => cases ps <;> simp [insertBlob]

theorem insertChild_not_found {cs : List TreeFolder} {p : String} (ps : List String)
    (b : BlobEntry) (h : p ∉ cs.map TreeFolder.name) :
    insertChild cs p ps b = cs ++ [insertBlob (.mk p [] []) ps b] := by
  induction cs with
  | nil => simp [insertChild]
  | cons c cs ih =>
    have hc : (c.name = p) = False := by
      simp only [eq_iff_iff, iff_false]
      intro e
      exact h (by simp [e])
    simp only [insertChild, hc, if_false]
    rw [ih (fun hm => h (by simp [hm]))]
    simp

theorem insertChild_found {pre post : List TreeFolder} {c : TreeFolder} {p : String}
    (ps : List String) (b : BlobEntry) (hpre : p ∉ pre.map TreeFolder.name)
    (hc : c.name = p) :
    insertChild (pre ++ c :: post) p ps b = pre ++ insertBlob c ps b :: post := by
  induction pre with
  | nil => simp [insertChild, hc]
  | cons d pre ih =>
    have hd : (d.name = p) = False := by
      simp only [eq_iff_iff, iff_false]
      intro e
      exact hpre (by simp [e])
    simp only [List.cons_append, insertChild, hd, if_false]
    rw [ih (fun hm => hpre (by simp [hm]))]

theorem map_name_insertChild (cs : List TreeFolder) (p : String) (ps : List String)
    (b : BlobEntry) :
    (insertChild cs p ps b).map TreeFolder.name =
      if p ∈ cs.map TreeFolder.name then cs.map TreeFolder.name
      else cs.map TreeFolder.name ++ [p] := by
  by_cases h : p ∈ cs.map TreeFolder.name
  · rcases exists_first_name h with ⟨pre, c, post, rfl, hpre, hc⟩
    rw [insertChild_found ps b hpre hc, if_pos h]
    simp [name_insertBlob]
  · rw [insertChild_not_found ps b h, if_neg h]
    simp [name_insertBlob]

theorem WfTree.names {n : String} {cs : List TreeFolder} {fs : List BlobEntry}
    (h : WfTree (.mk n cs fs)) : (cs.map TreeFolder.name).Nodup := by
  cases h with | mk hn hc => exact hn

theorem WfTree.child {n : String} {cs : List TreeFolder} {fs : List BlobEntry}
    (h : WfTree (.mk n cs fs)) : ∀ c ∈ cs, WfTree c := by
  cases h with | mk hn hc => exact hc

theorem wf_insertBlob : ∀ (ps : List String) (t : TreeFolder) (b : BlobEntry),
    WfTree t → WfTree (insertBlob t ps b)
  | [], .mk n cs fs, b, h => by
    cases h with | mk hn hc =>
    simp only [insertBlob]
    exact WfTree.mk hn hc
  | p :: ps, .mk n cs fs, b, h => by
    cases h with | mk hn hc =>
    simp only [insertBlob]
    by_cases hp : p ∈ cs.map TreeFolder.name
    · rcases exists_first_name hp with ⟨pre, c, post, rfl, hpre, hcn⟩
      rw [insertChild_found ps b hpre hcn]
      refine WfTree.mk ?_ ?_
      · simpa [name_insertBlob] using hn
      · intro x hx
        rcases List.mem_append.mp hx with hx | hx
        · exact hc x (List.mem_append.mpr (Or.inl hx))
        · rcases List.mem_cons.mp hx with rfl | hx
          · exact wf_insertBlob ps c b (hc c (by simp))
          · exact hc x (by simp [hx])
    · rw [insertChild_not_found ps b hp]
      refine WfTree.mk ?_ ?_
      · simpa [name_insertBlob] using List.Nodup.append hn (by simp)
          (by simpa [List.disjoint_right] using hp)
      · intro x hx
        rcases List.mem_append.mp hx with hx | hx
        · exact hc x hx
        · rcases List.mem_singleton.mp hx with rfl
          exact wf_insertBlob ps (.mk p [] []) b (WfTree.mk (by simp) (by simp))

theorem wf_preTree (l : List BlobEntry) : WfTree (preTree l) := by
  have h : ∀ (l : List BlobEntry) (t : TreeFolder), WfTree t →
      WfTree (l.foldl insertEntry t) := by
    intro l
    induction l with
    | nil => exact fun t h => h
    | cons b l ih =>
      intro t h
      exact ih _ (wf_insertBlob _ t b h)
  exact h l _ (WfTree.mk (by simp) (by simp))

/-! ## Depth-first file collection -/

theorem allFilesList_append (cs₁ cs₂ : List TreeFolder) :
    allFilesList (cs₁ ++ cs₂) = allFilesList cs₁ ++ allFilesList cs₂ := by
  induction cs₁ with
  | nil => simp [allFilesList]
  | cons c cs ih => simp [allFilesList, ih]

theorem allFiles_insertBlob : ∀ (ps : List String) (t : TreeFolder) (b : BlobEntry),
    (allFiles (insertBlob t ps b)).Perm (allFiles t ++ [b])
  | [], .mk n cs fs, b => by
    simp only [insertBlob, allFiles]
    refine List.perm_iff_count.mpr fun x => ?_
    simp [List.count_append, List.count_cons]
  | p :: ps, .mk n cs fs, b => by
    simp only [insertBlob, allFiles]
    refine List.perm_iff_count.mpr fun x => ?_
    by_cases hp : p ∈ cs.map TreeFolder.name
    · rcases exists_first_name hp with ⟨pre, c, post, rfl, hpre, hcn⟩
      rw [insertChild_found ps b hpre hcn]
      have hrec := (allFiles_insertBlob ps c b).count_eq x
      simp only [allFilesList_append, allFilesList, List.count_append] at *
      omega
    · rw [insertChild_not_found ps b hp]
      have hrec := (allFiles_insertBlob ps (.mk p [] []) b).count_eq x
      simp only [allFilesList_append, allFilesList, allFiles, List.count_append,
        List.append_nil, List.nil_append] at *
      omega

theorem allFiles_foldl : ∀ (l : List BlobEntry) (t : TreeFolder),
    (allFiles (l.foldl insertEntry t)).Perm (allFiles t ++ l)
  | [], t => by simp
  | b :: l, t => by
    simp only [List.foldl_cons]
    have h₁ := allFiles_foldl l (insertEntry t b)
    have h₂ := allFiles_insertBlob (dirParts b.pathname) t b
    refine h₁.trans ?_
    refine List.perm_iff_count.mpr fun x => ?_
    have := h₂.count_eq x
    simp only [insertEntry] at *
    simp only [List.count_append, List.count_cons, List.count_nil] at *
    omega

theorem allFiles_preTree (l : List BlobEntry) : (allFiles (preTree l)).Perm l := by
  have := allFiles_foldl l (.mk "" [] [])
  simpa [allFiles, allFilesList] using this

theorem allFilesList_perm {cs cs' : List TreeFolder} (h : cs.Perm cs') :
    (allFilesList cs).Perm (allFilesList cs') := by
  induction h with
  | nil => exact List.Perm.refl _
  | cons x _ ih => exact ih.append_left (allFiles x)
  | swap x y l =>
    refine List.perm_iff_count.mpr fun a => ?_
    simp [allFilesList, List.count_append]
    omega
  | trans _ _ ih₁ ih₂ => exact ih₁.trans ih₂

theorem allFilesList_sortTreeList {cs : List TreeFolder}
    (h : ∀ c ∈ cs, (allFiles (sortTree c)).Perm (allFiles c)) :
    (allFilesList (sortTreeList cs)).Perm (allFilesList cs) := by
  induction cs with
  | nil => exact List.Perm.refl _
  | cons c cs ih =>
    simp only [sortTreeList, allFilesList]
    exact (h c (by simp)).append (ih fun c hc => h c (by simp [hc]))

theorem allFiles_sortTree : ∀ t, (allFiles (sortTree t)).Perm (allFiles t) := by
  refine TreeFolder.ind _ fun n cs fs ih => ?_
  simp only [sortTree, allFiles]
  refine List.Perm.append (insSort_perm _ fs) ?_
  exact (allFilesList_perm (insSort_perm childLe (sortTreeList cs))).trans
    (allFilesList_sortTreeList ih)

theorem allFiles_buildTree (l : List BlobEntry) : (allFiles (buildTree l)).Perm l :=
  (allFiles_sortTree (preTree l)).trans (allFiles_preTree l)

/-! ## countFiles -/

theorem countFiles_eq_length : ∀ t, countFiles t = (allFiles t).length := by
  refine TreeFolder.ind _ fun n cs fs ih => ?_
  simp only [countFiles, allFiles, List.length_append]
  have h : ∀ cs : List TreeFolder, (∀ c ∈ cs, countFiles c = (allFiles c).length) →
      countFilesList cs = (allFilesList cs).length := by
    intro cs
    induction cs with
    | nil => intro _; rfl
    | cons c cs ih' =>
      intro hcs
      simp only [countFilesList, allFilesList, List.length_append]
      rw [hcs c (by simp), ih' fun c hc => hcs c (by simp [hc])]
  rw [h cs ih]

/-! ## Placement: filesAt after insertion and sorting -/

theorem find?_name_append_first {pre post : List TreeFolder} {x : TreeFolder} {p : String}
    (hpre : p ∉ pre.map TreeFolder.name) (hx : x.name = p) :
    (pre ++ x :: post).find? (fun c => c.name = p) = some x := by
  induction pre with
  | nil => simp [List.find?, hx]
  | cons d pre ih =>
    have hd : (d.name = p) = False := eq_false fun e => hpre (by simp [e])
    simp only [List.cons_append, List.find?, hd, decide_False]
    exact ih fun h => hpre (by simp [h])

theorem find?_name_decomp {cs : List TreeFolder} {c : TreeFolder} {p : String}
    (h : cs.find? (fun x => x.name = p) = some c) :
    ∃ pre post, cs = pre ++ c :: post ∧ p ∉ pre.map TreeFolder.name ∧ c.name = p := by
  induction cs with
  | nil => simp [List.find?] at h
  | cons d cs ih =>
    by_cases hd : d.name = p
    · have hdc : c = d := by
        simp only [List.find?, hd, decide_True] at h
        exact (Option.some.inj h).symm
      subst hdc
      exact ⟨[], cs, rfl, by simp, hd⟩
    · have hd' : (d.name = p) = False := eq_false hd
      simp only [List.find?, hd', decide_False] at h
      rcases ih h with ⟨pre, post, heq, hpre, hc⟩
      refine ⟨d :: pre, post, by rw [heq]; rfl, ?_, hc⟩
      simp only [List.map_cons, List.mem_cons]
      rintro (he | he)
      · exact hd he.symm
      · exact hpre he

theorem find?_insertChild_ne {cs : List TreeFolder} {p q : String} (ps : List String)
    (b : BlobEntry) (hqp : q ≠ p) :
    (insertChild cs p ps b).find? (fun c => c.name = q) =
      cs.find? (fun c => c.name = q) := by
  have hpq' : (p = q) = False := eq_false fun e => hqp e.symm
  have hqp' : (q = p) = False := eq_false hqp
  induction cs with
  | nil =>
    have hn : ((insertBlob (.mk p [] []) ps b).name = q) = False :=
      eq_false fun e => hqp (by rw [← e, name_insertBlob, TreeFolder.name_mk])
    simp [insertChild, List.find?, hn]
  | cons c cs ih =>
    by_cases hcp : c.name = p
    · have h₁ : ((insertBlob c ps b).name = q) = False :=
        eq_false fun e => hqp (by rw [← e, name_insertBlob, hcp])
      have h₂ : (c.name = q) = False := eq_false fun e => hqp (hcp ▸ e).symm
      simp [insertChild, hcp, List.find?, h₁, h₂, hpq', hqp']
    · have hcp' : (c.name = p) = False := eq_false hcp
      by_cases hcq : c.name = q
      · simp [insertChild, hcp', List.find?, hcq, hpq', hqp']
      · have hcq' : (c.name = q) = False := eq_false hcq
        simp only [insertChild, hcp', if_false, List.find?, hcq', decide_False]
        exact ih

theorem mem_filesAt_insertBlob : ∀ (ps : List String) (t : TreeFolder) (b : BlobEntry),
    b ∈ filesAt (insertBlob t ps b) ps
  | [], .mk n cs fs, b => by simp [insertBlob, filesAt]
  | p :: ps, .mk n cs fs, b => by
    simp only [insertBlob, filesAt, TreeFolder.children_mk]
    by_cases hp : p ∈ cs.map TreeFolder.name
    · rcases exists_first_name hp with ⟨pre, c, post, rfl, hpre, hcn⟩
      rw [insertChild_found ps b hpre hcn]
      rw [find?_name_append_first hpre (by rw [name_insertBlob]; exact hcn)]
      exact mem_filesAt_insertBlob ps c b
    · rw [insertChild_not_found ps b hp]
      rw [show cs ++ [insertBlob (.mk p [] []) ps b] =
        cs ++ insertBlob (.mk p [] []) ps b :: [] from rfl]
      rw [find?_name_append_first hp (by rw [name_insertBlob, TreeFolder.name_mk])]
      exact mem_filesAt_insertBlob ps (.mk p [] []) b

theorem mem_filesAt_insertBlob_mono : ∀ (ps : List String) (t : TreeFolder)
    (b : BlobEntry) (qs : List String) (x : BlobEntry),
    x ∈ filesAt t qs → x ∈ filesAt (insertBlob t ps b) qs
  | ps, .mk n cs fs, b, [], x, h => by
    cases ps with
    | nil =>
      simp only [filesAt, TreeFolder.files_mk] at h
      simp only [insertBlob, filesAt, TreeFolder.files_mk]
      exact List.mem_append.mpr (Or.inl h)
    | cons p ps =>
      simpa only [insertBlob, filesAt, TreeFolder.files_mk] using h
  | ps, .mk n cs fs, b, q :: qs, x, h => by
    simp only [filesAt, TreeFolder.children_mk] at h
    cases hfind : cs.find? (fun c => c.name = q) with
    | none => rw [hfind] at h; cases h
    | some c =>
      rw [hfind] at h
      cases ps with
      | nil =>
        simp only [insertBlob, filesAt, TreeFolder.children_mk, hfind]
        exact h
      | cons p ps =>
        simp only [insertBlob, filesAt, TreeFolder.children_mk]
        by_cases hqp : q = p
        · subst hqp
          rcases find?_name_decomp hfind with ⟨pre, post, rfl, hpre, hcq⟩
          rw [insertChild_found ps b hpre hcq]
          rw [find?_name_append_first hpre (by rw [name_insertBlob]; exact hcq)]
          exact mem_filesAt_insertBlob_mono ps c b qs x h
        · rw [find?_insertChild_ne ps b hqp, hfind]
          exact h

theorem mem_filesAt_foldl : ∀ (l : List BlobEntry) (t : TreeFolder) (qs : List String)
    (x : BlobEntry), x ∈ filesAt t qs → x ∈ filesAt (l.foldl insertEntry t) qs
  | [], _, _, _, h => h
  | b :: l, t, qs, x, h =>
    mem_filesAt_foldl l _ qs x (mem_filesAt_insertBlob_mono _ t b qs x h)

theorem name_sortTree (t : TreeFolder) : (sortTree t).name = t.name := by
  cases t with | mk n cs fs => simp [sortTree]

theorem sortTreeList_eq_map : ∀ cs : List TreeFolder, sortTreeList cs = cs.map sortTree
  | [] => rfl
  | c :: cs => by simp [sortTreeList, sortTreeList_eq_map cs]

theorem map_name_sortTreeList (cs : List TreeFolder) :
    (sortTreeList cs).map TreeFolder.name = cs.map TreeFolder.name := by
  rw [sortTreeList_eq_map, List.map_map]
  exact List.map_congr_left fun c _ => name_sortTree c

theorem mem_filesAt_sortTree : ∀ (qs : List String) (t : TreeFolder), WfTree t →
    ∀ x : BlobEntry, x ∈ filesAt (sortTree t) qs ↔ x ∈ filesAt t qs
  | [], .mk n cs fs, hw, x => by
    simp only [sortTree, filesAt, TreeFolder.files_mk]
    exact (insSort_perm fileLe fs).mem_iff
  | q :: qs, .mk n cs fs, hw, x => by
    simp only [sortTree, filesAt, TreeFolder.children_mk]
    by_cases hq : q ∈ cs.map TreeFolder.name
    · rcases List.mem_map.mp hq with ⟨c, hc, hcn⟩
      rw [find?_name_of_mem hw.names hc hcn]
      have hmem' : sortTree c ∈ insSort childLe (sortTreeList cs) :=
        (insSort_perm childLe (sortTreeList cs)).mem_iff.mpr
          (by rw [sortTreeList_eq_map]; exact List.mem_map_of_mem sortTree hc)
      have hnames' : ((insSort childLe (sortTreeList cs)).map TreeFolder.name).Nodup := by
        refine (((insSort_perm childLe (sortTreeList cs)).map TreeFolder.name).nodup_iff).mpr ?_
        rw [map_name_sortTreeList]
        exact hw.names
      rw [find?_name_of_mem hnames' hmem' (by rw [name_sortTree]; exact hcn)]
      exact mem_filesAt_sortTree qs c (hw.child c hc) x
    · rw [find?_name_eq_none.mpr hq, find?_name_eq_none.mpr ?_]
      · intro hmem
        refine hq ?_
        have := ((insSort_perm childLe (sortTreeList cs)).map TreeFolder.name).mem_iff.mp hmem
        rwa [map_name_sortTreeList] at this

theorem mem_filesAt_buildTree {l : List BlobEntry} {b : BlobEntry} (hb : b ∈ l) :
    b ∈ filesAt (buildTree l) (dirParts b.pathname) := by
  rcases List.append_of_mem hb with ⟨u, v, rfl⟩
  have h₁ : b ∈ filesAt (preTree (u ++ b :: v)) (dirParts b.pathname) := by
    unfold preTree
    rw [List.foldl_append]
    simp only [List.foldl_cons]
    exact mem_filesAt_foldl v _ _ b (mem_filesAt_insertBlob _ _ b)
  exact (mem_filesAt_sortTree _ _ (wf_preTree _) b).mpr h₁

/-! ## Tree equivalence -/

theorem eq_of_name_eq_nodup {cs : List TreeFolder} {c₁ c₂ : TreeFolder}
    (hn : (cs.map TreeFolder.name).Nodup) (h₁ : c₁ ∈ cs) (h₂ : c₂ ∈ cs)
    (he : c₁.name = c₂.name) : c₁ = c₂ := by
  have f₁ := find?_name_of_mem hn h₁ rfl
  have f₂ := find?_name_of_mem hn h₂ he.symm
  rw [f₁] at f₂
  exact Option.some.inj f₂

theorem tEquiv_refl : ∀ t, WfTree t → TEquiv t t := by
  refine TreeFolder.ind (fun t => WfTree t → TEquiv t t) ?_
  intro n cs fs ih hw
  refine TEquiv.mk (List.Perm.refl _) (List.Perm.refl _) ?_
  intro c₁ h₁ c₂ h₂ he
  have he' : c₁ = c₂ := eq_of_name_eq_nodup hw.names h₁ h₂ he
  subst he'
  exact ih c₁ h₁ (hw.child c₁ h₁)

theorem tEquiv_trans : ∀ {t₁ t₂ t₃ : TreeFolder},
    TEquiv t₁ t₂ → TEquiv t₂ t₃ → TEquiv t₁ t₃ := by
  intro t₁ t₂ t₃ h₁₂
  induction h₁₂ generalizing t₃ with
  | @mk n cs₁ cs₂ fs₁ fs₂ hf hn hm ih =>
    intro h₂₃
    cases h₂₃ with
    | @mk _ _ cs₃ _ fs₃ hf' hn' hm' =>
      refine TEquiv.mk (hf.trans hf') (hn.trans hn') ?_
      intro c₁ hc₁ c₃ hc₃ he
      have hmem : c₁.name ∈ cs₂.map TreeFolder.name :=
        hn.subset (List.mem_map_of_mem _ hc₁)
      rcases List.mem_map.mp hmem with ⟨c₂, hc₂, hcn⟩
      exact ih c₁ hc₁ c₂ hc₂ hcn.symm
        (hm' c₂ hc₂ c₃ hc₃ (hcn.trans he))

/-- Classify a member of a children list in which the unique child named p
has been replaced: it is either the replacement or an unchanged child whose
name is not p. -/
theorem mem_replace_classify {pre post : List TreeFolder} {c x y : TreeFolder} {p : String}
    (hn : ((pre ++ c :: post).map TreeFolder.name).Nodup) (hc : c.name = p)
    (hx : x ∈ pre ++ y :: post) :
    x = y ∨ (x ∈ pre ++ c :: post ∧ x.name ≠ p) := by
  simp only [List.map_append, List.map_cons, List.nodup_append] at hn
  rcases hn with ⟨hn₁, hn₂, hdisj⟩
  rcases List.mem_append.mp hx with hx | hx
  · refine Or.inr ⟨List.mem_append.mpr (Or.inl hx), fun he => ?_⟩
    exact hdisj (List.mem_map_of_mem _ hx) (by simp [he, hc])
  · rcases List.mem_cons.mp hx with rfl | hx
    · exact Or.inl rfl
    · refine Or.inr ⟨List.mem_append.mpr (Or.inr (List.mem_cons_of_mem _ hx)), fun he => ?_⟩
      have := (List.nodup_cons.mp hn₂).1
      exact this (by
        have : x.name ∈ post.map TreeFolder.name := List.mem_map_of_mem _ hx
        rwa [he, ← hc] at this)

theorem tEquiv_insertBlob : ∀ (ps : List String) {t₁ t₂ : TreeFolder} (b : BlobEntry),
    WfTree t₁ → WfTree t₂ → TEquiv t₁ t₂ →
    TEquiv (insertBlob t₁ ps b) (insertBlob t₂ ps b)
  | [], .mk n₁ cs₁ fs₁, .mk n₂ cs₂ fs₂, b, hw₁, hw₂, he => by
    cases he with
    | mk hf hn hm =>
      simp only [insertBlob]
      exact TEquiv.mk (hf.append (List.Perm.refl [b])) hn hm
  | p :: ps, .mk n₁ cs₁ fs₁, .mk n₂ cs₂ fs₂, b, hw₁, hw₂, he => by
    cases he with
    | mk hf hn hm =>
      simp only [insertBlob]
      by_cases hp : p ∈ cs₁.map TreeFolder.name
      · have hp₂ : p ∈ cs₂.map TreeFolder.name := hn.subset hp
        rcases exists_first_name hp with ⟨pre₁, c₁, post₁, heq₁, hpre₁, hc₁⟩
        rcases exists_first_name hp₂ with ⟨pre₂, c₂, post₂, heq₂, hpre₂, hc₂⟩
        subst heq₁
        subst heq₂
        rw [insertChild_found ps b hpre₁ hc₁, insertChild_found ps b hpre₂ hc₂]
        refine TEquiv.mk hf ?_ ?_
        · have e₁ : (pre₁ ++ insertBlob c₁ ps b :: post₁).map TreeFolder.name
              = (pre₁ ++ c₁ :: post₁).map TreeFolder.name := by
            simp [name_insertBlob]
          have e₂ : (pre₂ ++ insertBlob c₂ ps b :: post₂).map TreeFolder.name
              = (pre₂ ++ c₂ :: post₂).map TreeFolder.name := by
            simp [name_insertBlob]
          rw [e₁, e₂]
          exact hn
        · intro x₁ hx₁ x₂ hx₂ hxe
          have hmatch : TEquiv c₁ c₂ := hm c₁ (by simp) c₂ (by simp) (by rw [hc₁, hc₂])
          rcases mem_replace_classify hw₁.names hc₁ hx₁ with rfl | ⟨hx₁', hx₁n⟩
          · rcases mem_replace_classify hw₂.names hc₂ hx₂ with rfl | ⟨hx₂', hx₂n⟩
            · exact tEquiv_insertBlob ps b (hw₁.child c₁ (by simp))
                (hw₂.child c₂ (by simp)) hmatch
            · exact absurd (by rw [← hxe, name_insertBlob, hc₁]) (Ne.symm hx₂n)
          · rcases mem_replace_classify hw₂.names hc₂ hx₂ with rfl | ⟨hx₂', hx₂n⟩
            · exact absurd (by rw [hxe, name_insertBlob, hc₂]) hx₁n
            · exact hm x₁ hx₁' x₂ hx₂' hxe
      · have hp₂ : p ∉ cs₂.map TreeFolder.name := fun h => hp (hn.symm.subset h)
        rw [insertChild_not_found ps b hp, insertChild_not_found ps b hp₂]
        have hNname : (insertBlob (.mk p [] []) ps b).name = p := by
          rw [name_insertBlob, TreeFolder.name_mk]
        refine TEquiv.mk hf ?_ ?_
        · simpa [name_insertBlob] using hn.append (List.Perm.refl [p])
        · intro x₁ hx₁ x₂ hx₂ hxe
          rcases List.mem_append.mp hx₁ with hx₁ | hx₁
          · rcases List.mem_append.mp hx₂ with hx₂ | hx₂
            · exact hm x₁ hx₁ x₂ hx₂ hxe
            · rcases List.mem_singleton.mp hx₂ with rfl
              exfalso
              apply hp
              have hxp : x₁.name = p := by rw [hxe, hNname]
              exact hxp ▸ List.mem_map_of_mem _ hx₁
          · rcases List.mem_singleton.mp hx₁ with rfl
            rcases List.mem_append.mp hx₂ with hx₂ | hx₂
            · exfalso
              apply hp₂
              have hxp : x₂.name = p := by rw [← hxe, hNname]
              exact hxp ▸ List.mem_map_of_mem _ hx₂
            · rcases List.mem_singleton.mp hx₂ with rfl
              exact tEquiv_refl _ (wf_insertBlob ps (.mk p [] []) b
                (WfTree.mk (by simp) (by simp)))

/-! ## Insertion order commutes up to equivalence -/

theorem insertChild_comm_of_mem {p₁ p₂ : String} (qs₁ qs₂ : List String)
    (b₁ b₂ : BlobEntry) (hne : p₁ ≠ p₂) :
    ∀ cs : List TreeFolder,
      p₁ ∈ cs.map TreeFolder.name ∨ p₂ ∈ cs.map TreeFolder.name →
      insertChild (insertChild cs p₁ qs₁ b₁) p₂ qs₂ b₂
        = insertChild (insertChild cs p₂ qs₂ b₂) p₁ qs₁ b₁
  | [], h => by simp at h
  | c :: cs, h => by
    have hne₁ : (p₁ = p₂) = False := eq_false hne
    have hne₂ : (p₂ = p₁) = False := eq_false fun e => hne e.symm
    by_cases h₁ : c.name = p₁
    · have h₂ : (c.name = p₂) = False := eq_false fun e => hne ((h₁ ▸ e : p₁ = p₂))
      have hN : ((insertBlob c qs₁ b₁).name = p₂) = False :=
        eq_false fun e => hne (h₁ ▸ (name_insertBlob c qs₁ b₁ ▸ e))
      simp only [insertChild, h₁, if_pos, h₂, if_false, hN, hne₁, hne₂]
    · by_cases h₂ : c.name = p₂
      · have h₁' : (c.name = p₁) = False := eq_false h₁
        have hN : ((insertBlob c qs₂ b₂).name = p₁) = False :=
          eq_false fun e => h₁ (name_insertBlob c qs₂ b₂ ▸ e)
        simp only [insertChild, h₂, if_pos, h₁', if_false, hN, hne₁, hne₂]
      · have h₁' : (c.name = p₁) = False := eq_false h₁
        have h₂' : (c.name = p₂) = False := eq_false h₂
        have h' : p₁ ∈ cs.map TreeFolder.name ∨ p₂ ∈ cs.map TreeFolder.name := by
          rcases h with h | h
          · simp only [List.map_cons, List.mem_cons] at h
            rcases h with h | h
            · exact absurd h.symm h₁
            · exact Or.inl h
          · simp only [List.map_cons, List.mem_cons] at h
            rcases h with h | h
            · exact absurd h.symm h₂
            · exact Or.inr h
        simp only [insertChild, h₁', h₂', if_false]
        rw [insertChild_comm_of_mem qs₁ qs₂ b₁ b₂ hne cs h']

theorem tEquiv_insert_comm : ∀ (ps₁ : List String) (b₁ : BlobEntry) (ps₂ : List String)
    (b₂ : BlobEntry) (t : TreeFolder), WfTree t →
    TEquiv (insertBlob (insertBlob t ps₁ b₁) ps₂ b₂)
           (insertBlob (insertBlob t ps₂ b₂) ps₁ b₁)
  | [], b₁, [], b₂, .mk n cs fs, hw => by
    simp only [insertBlob]
    refine TEquiv.mk ?_ (List.Perm.refl _) ?_
    · refine List.perm_iff_count.mpr fun x => ?_
      simp [List.count_append, List.count_cons]
      omega
    · intro c₁ h₁ c₂ h₂ he
      have he' : c₁ = c₂ := eq_of_name_eq_nodup hw.names h₁ h₂ he
      subst he'
      exact tEquiv_refl c₁ (hw.child c₁ h₁)
  | [], b₁, q :: qs, b₂, .mk n cs fs, hw => by
    have hw' := wf_insertBlob (q :: qs) (.mk n cs (fs ++ [b₁])) b₂
      (WfTree.mk hw.names hw.child)
    simp only [insertBlob] at hw' ⊢
    exact tEquiv_refl _ hw'
  | p :: ps, b₁, [], b₂, .mk n cs fs, hw => by
    have hw' := wf_insertBlob (p :: ps) (.mk n cs (fs ++ [b₂])) b₁
      (WfTree.mk hw.names hw.child)
    simp only [insertBlob] at hw' ⊢
    exact tEquiv_refl _ hw'
  | p₁ :: qs₁, b₁, p₂ :: qs₂, b₂, .mk n cs fs, hw => by
    simp only [insertBlob]
    by_cases hpe : p₁ = p₂
    · subst hpe
      by_cases hp : p₁ ∈ cs.map TreeFolder.name
      · rcases exists_first_name hp with ⟨pre, c, post, rfl, hpre, hcn⟩
        rw [insertChild_found qs₁ b₁ hpre hcn,
          insertChild_found qs₂ b₂ hpre hcn,
          insertChild_found qs₂ b₂ hpre (by rw [name_insertBlob]; exact hcn),
          insertChild_found qs₁ b₁ hpre (by rw [name_insertBlob]; exact hcn)]
        refine TEquiv.mk (List.Perm.refl _) ?_ ?_
        · have e₁ : (pre ++ insertBlob (insertBlob c qs₁ b₁) qs₂ b₂ :: post).map
              TreeFolder.name = (pre ++ c :: post).map TreeFolder.name := by
            simp [name_insertBlob]
          have e₂ : (pre ++ insertBlob (insertBlob c qs₂ b₂) qs₁ b₁ :: post).map
              TreeFolder.name = (pre ++ c :: post).map TreeFolder.name := by
            simp [name_insertBlob]
          rw [e₁, e₂]
        · intro x₁ hx₁ x₂ hx₂ hxe
          rcases mem_replace_classify hw.names hcn hx₁ with rfl | ⟨hx₁', hx₁n⟩
          · rcases mem_replace_classify hw.names hcn hx₂ with rfl | ⟨hx₂', hx₂n⟩
            · exact tEquiv_insert_comm qs₁ b₁ qs₂ b₂ c (hw.child c (by simp))
            · exact absurd (by rw [← hxe, name_insertBlob, name_insertBlob, hcn])
                (Ne.symm hx₂n)
          · rcases mem_replace_classify hw.names hcn hx₂ with rfl | ⟨hx₂', hx₂n⟩
            · exact absurd (by rw [hxe, name_insertBlob, name_insertBlob, hcn]) hx₁n
            · have he' : x₁ = x₂ := eq_of_name_eq_nodup hw.names hx₁' hx₂' hxe
              subst he'
              exact tEquiv_refl x₁ (hw.child x₁ hx₁')
      · have hN₁ : (insertBlob (.mk p₁ [] []) qs₁ b₁).name = p₁ := by
          rw [name_insertBlob, TreeFolder.name_mk]
        have hN₂ : (insertBlob (.mk p₁ [] []) qs₂ b₂).name = p₁ := by
          rw [name_insertBlob, TreeFolder.name_mk]
        rw [insertChild_not_found qs₁ b₁ hp, insertChild_not_found qs₂ b₂ hp,
          insertChild_found qs₂ b₂ hp hN₁,
          insertChild_found qs₁ b₁ hp hN₂]
        refine TEquiv.mk (List.Perm.refl _) ?_ ?_
        · have e₁ : (cs ++ insertBlob (insertBlob (.mk p₁ [] []) qs₁ b₁) qs₂ b₂ :: []).map
              TreeFolder.name = cs.map TreeFolder.name ++ [p₁] := by
            simp [name_insertBlob]
          have e₂ : (cs ++ insertBlob (insertBlob (.mk p₁ [] []) qs₂ b₂) qs₁ b₁ :: []).map
              TreeFolder.name = cs.map TreeFolder.name ++ [p₁] := by
            simp [name_insertBlob]
          rw [e₁, e₂]
        · intro x₁ hx₁ x₂ hx₂ hxe
          have hname₁ : (insertBlob (insertBlob (.mk p₁ [] []) qs₁ b₁) qs₂ b₂).name = p₁ := by
            rw [name_insertBlob, hN₁]
          have hname₂ : (insertBlob (insertBlob (.mk p₁ [] []) qs₂ b₂) qs₁ b₁).name = p₁ := by
            rw [name_insertBlob, hN₂]
          rcases List.mem_append.mp hx₁ with hx₁ | hx₁
          · rcases List.mem_append.mp hx₂ with hx₂ | hx₂
            · have he' : x₁ = x₂ := eq_of_name_eq_nodup hw.names hx₁ hx₂ hxe
              subst he'
              exact tEquiv_refl x₁ (hw.child x₁ hx₁)
            · rcases List.mem_singleton.mp hx₂ with rfl
              exfalso
              apply hp
              have hxp : x₁.name = p₁ := by rw [hxe, hname₂]
              exact hxp ▸ List.mem_map_of_mem _ hx₁
          · rcases List.mem_singleton.mp hx₁ with rfl
            rcases List.mem_append.mp hx₂ with hx₂ | hx₂
            · exfalso
              apply hp
              have hxp : x₂.name = p₁ := by rw [← hxe, hname₁]
              exact hxp ▸ List.mem_map_of_mem _ hx₂
            · rcases List.mem_singleton.mp hx₂ with rfl
              exact tEquiv_insert_comm qs₁ b₁ qs₂ b₂ (.mk p₁ [] [])
                (WfTree.mk (by simp) (by simp))
    · by_cases hmem : p₁ ∈ cs.map TreeFolder.name ∨ p₂ ∈ cs.map TreeFolder.name
      · rw [insertChild_comm_of_mem qs₁ qs₂ b₁ b₂ hpe cs hmem]
        have hw₂ := wf_insertBlob (p₁ :: qs₁)
          (insertBlob (.mk n cs fs) (p₂ :: qs₂) b₂) b₁
          (wf_insertBlob (p₂ :: qs₂) (.mk n cs fs) b₂ hw)
        simp only [insertBlob] at hw₂
        exact tEquiv_refl _ hw₂
      · push_neg at hmem
        rcases hmem with ⟨hp₁, hp₂⟩
        have hN₁ : (insertBlob (.mk p₁ [] []) qs₁ b₁).name = p₁ := by
          rw [name_insertBlob, TreeFolder.name_mk]
        have hN₂ : (insertBlob (.mk p₂ [] []) qs₂ b₂).name = p₂ := by
          rw [name_insertBlob, TreeFolder.name_mk]
        have hp₂' : p₂ ∉ (cs ++ [insertBlob (.mk p₁ [] []) qs₁ b₁]).map TreeFolder.name := by
          simp only [List.map_append, List.map_cons, List.map_nil, List.mem_append,
            List.mem_cons, List.not_mem_nil]
          rintro (h | h)
          · exact hp₂ h
          · rcases h with h | h
            · rw [hN₁] at h
              exact hpe h.symm
            · exact h.elim
        have hp₁' : p₁ ∉ (cs ++ [insertBlob (.mk p₂ [] []) qs₂ b₂]).map TreeFolder.name := by
          simp only [List.map_append, List.map_cons, List.map_nil, List.mem_append,
            List.mem_cons, List.not_mem_nil]
          rintro (h | h)
          · exact hp₁ h
          · rcases h with h | h
            · rw [hN₂] at h
              exact hpe h
            · exact h.elim
        rw [insertChild_not_found qs₁ b₁ hp₁, insertChild_not_found qs₂ b₂ hp₂,
          insertChild_not_found qs₂ b₂ hp₂', insertChild_not_found qs₁ b₁ hp₁']
        refine TEquiv.mk (List.Perm.refl _) ?_ ?_
        · have e₁ : ((cs ++ [insertBlob (.mk p₁ [] []) qs₁ b₁]) ++
              [insertBlob (.mk p₂ [] []) qs₂ b₂]).map TreeFolder.name
              = cs.map TreeFolder.name ++ [p₁] ++ [p₂] := by
            simp [hN₁, hN₂]
          have e₂ : ((cs ++ [insertBlob (.mk p₂ [] []) qs₂ b₂]) ++
              [insertBlob (.mk p₁ [] []) qs₁ b₁]).map TreeFolder.name
              = cs.map TreeFolder.name ++ [p₂] ++ [p₁] := by
            simp [hN₁, hN₂]
          rw [e₁, e₂]
          refine List.perm_iff_count.mpr fun x => ?_
          simp [List.count_append, List.count_cons]
          omega
        · intro x₁ hx₁ x₂ hx₂ hxe
          have hwN₁ : WfTree (insertBlob (.mk p₁ [] []) qs₁ b₁) :=
            wf_insertBlob qs₁ (.mk p₁ [] []) b₁ (WfTree.mk (by simp) (by simp))
          have hwN₂ : WfTree (insertBlob (.mk p₂ [] []) qs₂ b₂) :=
            wf_insertBlob qs₂ (.mk p₂ [] []) b₂ (WfTree.mk (by simp) (by simp))
          have hcl₁ : x₁ ∈ cs ∨ x₁ = insertBlob (.mk p₁ [] []) qs₁ b₁ ∨
              x₁ = insertBlob (.mk p₂ [] []) qs₂ b₂ := by
            rcases List.mem_append.mp hx₁ with h | h
            · rcases List.mem_append.mp h with h | h
              · exact Or.inl h
              · exact Or.inr (Or.inl (List.mem_singleton.mp h))
            · exact Or.inr (Or.inr (List.mem_singleton.mp h))
          have hcl₂ : x₂ ∈ cs ∨ x₂ = insertBlob (.mk p₂ [] []) qs₂ b₂ ∨
              x₂ = insertBlob (.mk p₁ [] []) qs₁ b₁ := by
            rcases List.mem_append.mp hx₂ with h | h
            · rcases List.mem_append.mp h with h | h
              · exact Or.inl h
              · exact Or.inr (Or.inl (List.mem_singleton.mp h))
            · exact Or.inr (Or.inr (List.mem_singleton.mp h))
          rcases hcl₁ with hx₁c | hx₁c | hx₁c
          · rcases hcl₂ with hx₂c | hx₂c | hx₂c
            · have he' : x₁ = x₂ := eq_of_name_eq_nodup hw.names hx₁c hx₂c hxe
              subst he'
              exact tEquiv_refl x₁ (hw.child x₁ hx₁c)
            · exfalso
              apply hp₂
              have hxp : x₁.name = p₂ := by rw [hxe, hx₂c, hN₂]
              exact hxp ▸ List.mem_map_of_mem _ hx₁c
            · exfalso
              apply hp₁
              have hxp : x₁.name = p₁ := by rw [hxe, hx₂c, hN₁]
              exact hxp ▸ List.mem_map_of_mem _ hx₁c
          · subst hx₁c
            rcases hcl₂ with hx₂c | hx₂c | hx₂c
            · exfalso
              apply hp₁
              have hxp : x₂.name = p₁ := by rw [← hxe, hN₁]
              exact hxp ▸ List.mem_map_of_mem _ hx₂c
            · subst hx₂c
              exfalso
              rw [hN₁, hN₂] at hxe
              exact hpe hxe
            · subst hx₂c
              exact tEquiv_refl _ hwN₁
          · subst hx₁c
            rcases hcl₂ with hx₂c | hx₂c | hx₂c
            · exfalso
              apply hp₂
              have hxp : x₂.name = p₂ := by rw [← hxe, hN₂]
              exact hxp ▸ List.mem_map_of_mem _ hx₂c
            · subst hx₂c
              exact tEquiv_refl _ hwN₂
            · subst hx₂c
              exfalso
              rw [hN₂, hN₁] at hxe
              exact hpe hxe.symm

/-! ## From permutations of the input to equivalent trees -/

theorem tEquiv_foldl_congr : ∀ (l : List BlobEntry) {t₁ t₂ : TreeFolder},
    WfTree t₁ → WfTree t₂ → TEquiv t₁ t₂ →
    TEquiv (l.foldl insertEntry t₁) (l.foldl insertEntry t₂)
  | [], _, _, _, _, he => he
  | b :: l, t₁, t₂, h₁, h₂, he => by
    simp only [List.foldl_cons]
    exact tEquiv_foldl_congr l (wf_insertBlob _ t₁ b h₁) (wf_insertBlob _ t₂ b h₂)
      (tEquiv_insertBlob _ b h₁ h₂ he)

theorem tEquiv_foldl_perm {l₁ l₂ : List BlobEntry} (hp : l₁.Perm l₂) :
    ∀ (t₁ t₂ : TreeFolder), WfTree t₁ → WfTree t₂ → TEquiv t₁ t₂ →
    TEquiv (l₁.foldl insertEntry t₁) (l₂.foldl insertEntry t₂) := by
  induction hp with
  | nil => exact fun t₁ t₂ _ _ he => he
  | cons x _ ih =>
    intro t₁ t₂ h₁ h₂ he
    simp only [List.foldl_cons]
    exact ih _ _ (wf_insertBlob _ t₁ x h₁) (wf_insertBlob _ t₂ x h₂)
      (tEquiv_insertBlob _ x h₁ h₂ he)
  | swap x y l =>
    intro t₁ t₂ h₁ h₂ he
    simp only [List.foldl_cons]
    have hcomm : TEquiv (insertEntry (insertEntry t₁ y) x)
        (insertEntry (insertEntry t₁ x) y) :=
      tEquiv_insert_comm (dirParts y.pathname) y (dirParts x.pathname) x t₁ h₁
    have hcongr : TEquiv (insertEntry (insertEntry t₁ x) y)
        (insertEntry (insertEntry t₂ x) y) :=
      tEquiv_insertBlob _ y (wf_insertBlob _ t₁ x h₁) (wf_insertBlob _ t₂ x h₂)
        (tEquiv_insertBlob _ x h₁ h₂ he)
    exact tEquiv_foldl_congr l
      (wf_insertBlob _ _ x (wf_insertBlob _ t₁ y h₁))
      (wf_insertBlob _ _ y (wf_insertBlob _ t₂ x h₂))
      (tEquiv_trans hcomm hcongr)
  | trans hp₁₂ hp₂₃ ih₁₂ ih₂₃ =>
    intro t₁ t₂ h₁ h₂ he
    exact tEquiv_trans (ih₁₂ t₁ t₁ h₁ h₁ (tEquiv_refl t₁ h₁)) (ih₂₃ t₁ t₂ h₁ h₂ he)

theorem tEquiv_preTree {l₁ l₂ : List BlobEntry} (hp : l₁.Perm l₂) :
    TEquiv (preTree l₁) (preTree l₂) := by
  have hw : WfTree (.mk "" [] []) := WfTree.mk (by simp) (by simp)
  exact tEquiv_foldl_perm hp _ _ hw hw (tEquiv_refl _ hw)

/-! ## Equivalent trees sort to the same tree -/

theorem childLe_trans : ∀ x y z : TreeFolder,
    childLe x y = true → childLe y z = true → childLe x z = true :=
  fun _ _ _ h₁ h₂ => strLe_trans h₁ h₂

theorem childLe_total : ∀ x y : TreeFolder, childLe x y = true ∨ childLe y x = true :=
  fun x y => strLe_total x.name y.name

theorem fileLe_trans : ∀ x y z : BlobEntry,
    fileLe x y = true → fileLe y z = true → fileLe x z = true :=
  fun _ _ _ h₁ h₂ => strLe_trans h₁ h₂

theorem fileLe_total : ∀ x y : BlobEntry, fileLe x y = true ∨ fileLe y x = true :=
  fun x y => strLe_total x.pathname y.pathname

theorem allFiles_sublist {cs : List TreeFolder} {c : TreeFolder} (hc : c ∈ cs) :
    (allFiles c).Sublist (allFilesList cs) := by
  induction cs with
  | nil => cases hc
  | cons d cs ih =>
    rcases List.mem_cons.mp hc with rfl | hc
    · simp only [allFilesList]
      exact List.sublist_append_left (allFiles c) (allFilesList cs)
    · simp only [allFilesList]
      exact (ih hc).trans (List.sublist_append_right _ _)

theorem sortTree_eq_of_tEquiv : ∀ {t₁ t₂ : TreeFolder}, TEquiv t₁ t₂ → WfTree t₁ →
    ((allFiles t₁).map BlobEntry.pathname).Nodup → sortTree t₁ = sortTree t₂ := by
  intro t₁ t₂ he
  induction he with
  | @mk n cs₁ cs₂ fs₁ fs₂ hf hn hm ih =>
    intro hw hnd
    have hnd' : ((fs₁ ++ allFilesList cs₁).map BlobEntry.pathname).Nodup := by
      simpa [allFiles] using hnd
    have hfs₁nd : (fs₁.map BlobEntry.pathname).Nodup :=
      ((List.sublist_append_left fs₁ (allFilesList cs₁)).map BlobEntry.pathname).nodup hnd'
    simp only [sortTree]
    have hfiles : insSort fileLe fs₁ = insSort fileLe fs₂ := by
      refine sorted_unique BlobEntry.pathname
        (((insSort_perm fileLe fs₁).trans hf).trans (insSort_perm fileLe fs₂).symm)
        ((insSort_pairwise fileLe_trans fileLe_total fs₁).imp fun h => h)
        ((insSort_pairwise fileLe_trans fileLe_total fs₂).imp fun h => h) ?_
      exact (((insSort_perm fileLe fs₁).map BlobEntry.pathname).nodup_iff).mpr hfs₁nd
    have hmapeq : (cs₁.map sortTree).Perm (cs₂.map sortTree) := by
      refine map_perm_of_keyed TreeFolder.name sortTree hn hw.names ?_
      intro x₁ hx₁ x₂ hx₂ hxe
      refine ih x₁ hx₁ x₂ hx₂ hxe (hw.child x₁ hx₁) ?_
      have hsub : (allFiles x₁).Sublist (fs₁ ++ allFilesList cs₁) :=
        (allFiles_sublist hx₁).trans (List.sublist_append_right _ _)
      exact (hsub.map BlobEntry.pathname).nodup hnd'
    have hchildren : insSort childLe (sortTreeList cs₁) = insSort childLe (sortTreeList cs₂) := by
      refine sorted_unique TreeFolder.name ?_
        ((insSort_pairwise childLe_trans childLe_total _).imp fun h => h)
        ((insSort_pairwise childLe_trans childLe_total _).imp fun h => h) ?_
      · rw [sortTreeList_eq_map, sortTreeList_eq_map]
        exact ((insSort_perm childLe (cs₁.map sortTree)).trans hmapeq).trans
          (insSort_perm childLe (cs₂.map sortTree)).symm
      · refine (((insSort_perm childLe (sortTreeList cs₁)).map TreeFolder.name).nodup_iff).mpr ?_
        rw [map_name_sortTreeList]
        exact hw.names
    rw [hfiles, hchildren]

/-! ## buildTree is canonical -/

theorem buildTree_perm_eq {l₁ l₂ : List BlobEntry} (hp : l₁.Perm l₂)
    (hnd : (l₁.map BlobEntry.pathname).Nodup) : buildTree l₁ = buildTree l₂ := by
  have he : TEquiv (preTree l₁) (preTree l₂) := tEquiv_preTree hp
  have hnd' : ((allFiles (preTree l₁)).map BlobEntry.pathname).Nodup :=
    (((allFiles_preTree l₁).map BlobEntry.pathname).nodup_iff).mpr hnd
  exact sortTree_eq_of_tEquiv he (wf_preTree l₁) hnd'

theorem sortedTree_sortTree : ∀ t, SortedTree (sortTree t) := by
  refine TreeFolder.ind (fun t => SortedTree (sortTree t)) ?_
  intro n cs fs ih
  simp only [sortTree]
  refine SortedTree.mk ?_ ?_ ?_
  · exact insSort_pairwise childLe_trans childLe_total _
  · exact insSort_pairwise fileLe_trans fileLe_total fs
  · intro c hc
    have hmem : c ∈ sortTreeList cs :=
      (insSort_perm childLe (sortTreeList cs)).mem_iff.mp hc
    rw [sortTreeList_eq_map] at hmem
    rcases List.mem_map.mp hmem with ⟨c₀, hc₀, rfl⟩
    exact ih c₀ hc₀

theorem sortedTree_buildTree (l : List BlobEntry) : SortedTree (buildTree l) :=
  sortedTree_sortTree (preTree l)

/-! ## computeBasePath -/

theorem computeBasePath_single (n : String) (c : TreeFolder) :
    computeBasePath (.mk n [c] []) = c.name :: computeBasePath c := by
  rw [computeBasePath]

theorem computeBasePath_stop {n : String} {cs : List TreeFolder} {fs : List BlobEntry}
    (h : cs.length ≠ 1 ∨ fs ≠ []) : computeBasePath (.mk n cs fs) = [] := by
  match cs, fs with
  | [], fs => rw [computeBasePath]; simp
  | [c], [] =>
    rcases h with h | h
    · exact absurd rfl h
    · exact absurd rfl h
  | [c], f :: fs => rw [computeBasePath]; simp
  | c₁ :: c₂ :: cs, fs => rw [computeBasePath]; simp

/-! ## Pagination -/

theorem listBlobs_eq_consumed : ∀ pages : List BlobListResult,
    listBlobs pages = ((specConsumedPages pages).map BlobListResult.blobs).flatten
  | [] => rfl
  | page :: rest => by
    simp only [listBlobs, specConsumedPages]
    by_cases hm : page.hasMore
    · cases hc : page.cursor with
      | none => simp [hm, hc]
      | some c => simp [hm, hc, listBlobs_eq_consumed rest]
    · have hm' : page.hasMore = false := Bool.of_not_eq_true hm
      simp [hm']

theorem listBlobs_stop (page : BlobListResult) (rest : List BlobListResult)
    (h : page.hasMore = false) : listBlobs (page :: rest) = page.blobs := by
  simp [listBlobs, h]

/-! ## Splitting and joining pathnames -/

theorem splitSlashChars_ne_nil : ∀ l : List Char, splitSlashChars l ≠ []
  | [] => by simp [splitSlashChars]
  | c :: cs => by
    by_cases h : c = '/'
    · simp [splitSlashChars, h]
    · simp only [splitSlashChars, if_neg h]
      cases hs : splitSlashChars cs with
      | nil => simp
      | cons s ss => simp

theorem splitSlashChars_no_slash : ∀ l : List Char, '/' ∉ l → splitSlashChars l = [l]
  | [], _ => rfl
  | c :: cs, h => by
    have hc : ¬ c = '/' := fun e => h (by simp [e])
    simp only [splitSlashChars, if_neg hc]
    rw [splitSlashChars_no_slash cs fun hm => h (List.mem_cons_of_mem _ hm)]

theorem splitSlashChars_cons_slash (cs : List Char) :
    splitSlashChars ('/' :: cs) = [] :: splitSlashChars cs := by
  simp [splitSlashChars]

theorem splitSlashChars_cons_ne {c : Char} (cs : List Char) (hc : ¬ c = '/') :
    splitSlashChars (c :: cs) =
      match splitSlashChars cs with
      | [] => [[c]]
      | s :: ss => (c :: s) :: ss := by
  simp [splitSlashChars, hc]

theorem splitSlashChars_append (l₁ l₂ : List Char) (h : '/' ∉ l₂) :
    splitSlashChars (l₁ ++ '/' :: l₂) = splitSlashChars l₁ ++ [l₂] := by
  induction l₁ with
  | nil =>
    rw [List.nil_append, splitSlashChars_cons_slash, splitSlashChars_no_slash l₂ h]
    rfl
  | cons c l₁ ih =>
    by_cases hc : c = '/'
    · subst hc
      rw [List.cons_append, splitSlashChars_cons_slash, splitSlashChars_cons_slash, ih]
      rfl
    · cases hs : splitSlashChars l₁ with
      | nil => exact absurd hs (splitSlashChars_ne_nil l₁)
      | cons s ss =>
        rw [List.cons_append, splitSlashChars_cons_ne _ hc, splitSlashChars_cons_ne _ hc,
          ih, hs, List.cons_append]
        rfl

theorem joinChars_splitSlashChars : ∀ l : List Char, joinChars (splitSlashChars l) = l
  | [] => rfl
  | c :: cs => by
    by_cases hc : c = '/'
    · subst hc
      rw [splitSlashChars_cons_slash]
      cases hs : splitSlashChars cs with
      | nil => exact absurd hs (splitSlashChars_ne_nil cs)
      | cons s ss =>
        have hrec := joinChars_splitSlashChars cs
        rw [hs] at hrec
        simp only [joinChars]
        rw [hrec]
        rfl
    · rw [splitSlashChars_cons_ne _ hc]
      cases hs : splitSlashChars cs with
      | nil => exact absurd hs (splitSlashChars_ne_nil cs)
      | cons s ss =>
        have hrec := joinChars_splitSlashChars cs
        rw [hs] at hrec
        cases ss with
        | nil =>
          simp only [joinChars] at hrec ⊢
          rw [hrec]
        | cons s₂ ss =>
          simp only [joinChars] at hrec ⊢
          rw [← hrec]
          rfl

theorem joinPath_map_mk : ∀ xss : List (List Char),
    joinPath (xss.map String.mk) = String.mk (joinChars xss)
  | [] => rfl
  | [x] => rfl
  | x :: y :: xss => by
    simp only [List.map_cons, joinPath, joinChars]
    rw [show String.mk y :: List.map String.mk xss = List.map String.mk (y :: xss) from rfl,
      joinPath_map_mk (y :: xss)]
    apply String.ext
    simp

/-! ## Destination pathname derivation -/

theorem joinPath_pair (a b : String) : joinPath [a, b] = a ++ "/" ++ b := rfl

theorem buildBlobPathname_empty_active {pfx fn : String} (hp : pfx ≠ "") (hf : fn ≠ "") :
    buildBlobPathname pfx "" fn = pfx ++ "/" ++ fn := by
  simp only [buildBlobPathname]
  have h : ¬ ('/' ∈ ("" : String).data) := by
    intro h
    simp at h
  rw [if_neg h]
  simp only [List.filter]
  simp [hp, hf, joinPath_pair]

theorem buildBlobPathname_editor {pfx folder note fn : String}
    (hp : pfx ≠ "") (hfo : folder ≠ "") (hf : fn ≠ "") (hnote : '/' ∉ note.data) :
    buildBlobPathname pfx (folder ++ "/" ++ note) fn = pfx ++ "/" ++ folder ++ "/" ++ fn := by
  have hdata : (folder ++ "/" ++ note).data = folder.data ++ '/' :: note.data := by
    show (folder.data ++ ('/' :: [])) ++ note.data = folder.data ++ '/' :: note.data
    simp
  have hmem : '/' ∈ (folder ++ "/" ++ note).data := by
    rw [hdata]
    exact List.mem_append.mpr (Or.inr (by simp))
  have hsplit : splitSlash (folder ++ "/" ++ note)
      = (splitSlashChars folder.data).map String.mk ++ [String.mk note.data] := by
    simp only [splitSlash]
    rw [hdata, splitSlashChars_append _ _ hnote]
    simp
  have hfolder : joinPath ((splitSlash (folder ++ "/" ++ note)).dropLast) = folder := by
    rw [hsplit, List.dropLast_concat, joinPath_map_mk, joinChars_splitSlashChars]
  simp only [buildBlobPathname]
  rw [if_pos hmem, hfolder]
  simp only [List.filter]
  simp only [hp, hfo, hf, decide_not]
  simp [joinPath]
  apply String.ext
  simp

/-! ## The upload loop -/

theorem handleDropLoop_count (s : DropSettings) (tp : String)
    (res : Nat → Except String Unit) : ∀ (files : List DropFile) (i u : Nat),
    (handleDropLoop s tp res files i u).2 = u + countUploads s res files i
  | [], i, u => by simp [handleDropLoop, countUploads]
  | f :: rest, i, u => by
    by_cases ho : oversized s f
    · simp only [handleDropLoop, countUploads, ho, if_true]
      exact handleDropLoop_count s tp res rest (i + 1) u
    · simp only [handleDropLoop, countUploads, ho, if_false, Bool.false_eq_true]
      cases hr : res i with
      | ok v =>
        simp only [handleDropLoop_count s tp res rest (i + 1)]
        omega
      | error m =>
        simp only [handleDropLoop_count s tp res rest (i + 1)]
        omega

theorem handleDropLoop_no_refresh (s : DropSettings) (tp : String)
    (res : Nat → Except String Unit) : ∀ (files : List DropFile) (i u : Nat),
    DropEvent.refresh ∉ (handleDropLoop s tp res files i u).1
  | [], i, u => by simp [handleDropLoop]
  | f :: rest, i, u => by
    by_cases ho : oversized s f
    · simp only [handleDropLoop, ho, if_true, List.mem_cons]
      rintro (h | h)
      · cases h
      · exact handleDropLoop_no_refresh s tp res rest (i + 1) u h
    · simp only [handleDropLoop, ho, if_false, Bool.false_eq_true]
      cases hr : res i with
      | ok v =>
        simp only [List.mem_cons]
        rintro (h | h | h)
        · cases h
        · cases h
        · exact handleDropLoop_no_refresh s tp res rest (i + 1) (u + 1) h
      | error m =>
        simp only [List.mem_cons]
        rintro (h | h | h)
        · cases h
        · cases h
        · exact handleDropLoop_no_refresh s tp res rest (i + 1) u h

theorem handleDropLoop_uploads (s : DropSettings) (tp : String)
    (res : Nat → Except String Unit) : ∀ (files : List DropFile) (i u : Nat),
    (handleDropLoop s tp res files i u).1.filter isUploadEvent
      = specUploads s tp res files i
  | [], i, u => by simp [handleDropLoop, specUploads]
  | f :: rest, i, u => by
    by_cases ho : oversized s f
    · simp only [handleDropLoop, specUploads, ho, if_true, List.filter]
      simp only [isUploadEvent]
      exact handleDropLoop_uploads s tp res rest (i + 1) u
    · simp only [handleDropLoop, specUploads, ho, if_false, Bool.false_eq_true]
      cases hr : res i with
      | ok v =>
        simp only [List.filter, isUploadEvent]
        rw [handleDropLoop_uploads s tp res rest (i + 1) (u + 1)]
      | error m =>
        simp only [List.filter, isUploadEvent]
        exact handleDropLoop_uploads s tp res rest (i + 1) u

theorem handleDropLoop_oversized_notice (s : DropSettings) (tp : String)
    (res : Nat → Except String Unit) : ∀ (files : List DropFile) (i u : Nat)
    (f : DropFile), f ∈ files → oversized s f = true →
    DropEvent.notice ("\"" ++ f.fname ++ "\" exceeds " ++ toString s.maxFileSizeMB
      ++ " MB limit") ∈ (handleDropLoop s tp res files i u).1
  | [], _, _, _, hf, _ => absurd hf (List.not_mem_nil _)
  | g :: rest, i, u, f, hf, ho => by
    rcases List.mem_cons.mp hf with rfl | hf
    · simp [handleDropLoop, ho]
    · by_cases hg : oversized s g
      · simp only [handleDropLoop, hg, if_true, List.mem_cons]
        exact Or.inr (handleDropLoop_oversized_notice s tp res rest (i + 1) u f hf ho)
      · simp only [handleDropLoop, hg, if_false, Bool.false_eq_true]
        cases hr : res i with
        | ok v =>
          simp only [List.mem_cons]
          exact Or.inr (Or.inr
            (handleDropLoop_oversized_notice s tp res rest (i + 1) (u + 1) f hf ho))
        | error m =>
          simp only [List.mem_cons]
          exact Or.inr (Or.inr
            (handleDropLoop_oversized_notice s tp res rest (i + 1) u f hf ho))

/-! # Claim theorems -/

/-- C1: for every list of RemoteObjects, the tree returned by buildTree
contains each input object exactly once — the multiset of objects reachable
by depth-first traversal of the files fields is a permutation of the input
list — and every input object is stored in the node addressed by its
pathname's folder segments (all slash-separated segments before the last). -/
theorem claim_C1 (l : List BlobEntry) :
    (allFiles (buildTree l)).Perm l ∧
    ∀ b ∈ l, b ∈ filesAt (buildTree l) (dirParts b.pathname) :=
  ⟨allFiles_buildTree l, fun _ hb => mem_filesAt_buildTree hb⟩

/-- Witness for C1 at a concrete two-element listing. -/
theorem claim_C1_witness :
    (allFiles (buildTree [⟨"u1", "a/b/x.png", 1, "t"⟩, ⟨"u2", "y.png", 2, "t"⟩])).Perm
      [⟨"u1", "a/b/x.png", 1, "t"⟩, ⟨"u2", "y.png", 2, "t"⟩] ∧
    (⟨"u1", "a/b/x.png", 1, "t"⟩ : BlobEntry) ∈
      filesAt (buildTree [⟨"u1", "a/b/x.png", 1, "t"⟩, ⟨"u2", "y.png", 2, "t"⟩])
        (dirParts (⟨"u1", "a/b/x.png", 1, "t"⟩ : BlobEntry).pathname) :=
  ⟨(claim_C1 _).1, (claim_C1 _).2 _ (by decide)⟩

/-- C2: listBlobs terminates on every finite response sequence and returns,
in order, the concatenation of the blobs of exactly the pages the loop
consumes; a page with hasMore false ends the loop right after its blobs are
appended, even when it carries a cursor, and a further page is requested
only while the previous one had hasMore true and a cursor (the definition of
specConsumedPages, modelled from the spec). -/
theorem claim_C2 :
    (∀ pages : List BlobListResult,
      listBlobs pages = ((specConsumedPages pages).map BlobListResult.blobs).flatten) ∧
    (∀ (page : BlobListResult) (rest : List BlobListResult), page.hasMore = false →
      listBlobs (page :: rest) = page.blobs) :=
  ⟨listBlobs_eq_consumed, listBlobs_stop⟩

/-- Witness for C2: a final page reporting hasMore false but still carrying
a cursor ends the listing immediately. -/
theorem claim_C2_witness :
    listBlobs [⟨[⟨"u1", "a", 1, "t"⟩], some "cur", false⟩, ⟨[⟨"u2", "b", 2, "t"⟩], none, true⟩]
      = [⟨"u1", "a", 1, "t"⟩] :=
  claim_C2.2 ⟨[⟨"u1", "a", 1, "t"⟩], some "cur", false⟩ [⟨[⟨"u2", "b", 2, "t"⟩], none, true⟩]
    (by decide)

/-- C3 counterexample: a batch whose only file exceeds the size limit
triggers no listing refresh at all (and no aggregate summary), refuting the
claim that exactly one refresh and one summary follow every completed
batch. -/
theorem claim_C3_counterexample :
    handleDrop ⟨"tok", 1, false, "pfx"⟩ [⟨"big.png", 3 * 1024 * 1024⟩] "target"
        (fun _ => .ok ())
      = [.notice ("\"big.png\" exceeds 1 MB limit")] ∧
    ¬ ((handleDrop ⟨"tok", 1, false, "pfx"⟩ [⟨"big.png", 3 * 1024 * 1024⟩] "target"
        (fun _ => .ok ())).count DropEvent.refresh = 1) := by
  exact ⟨by decide, by decide⟩

/-- C3 (amended): with a configured token, every oversized file is rejected
with a per-file notice while the remaining files continue to upload
sequentially with their derived pathnames; after the batch, the aggregate
notice (reporting the number uploaded) and a single refresh are issued if
and only if at least one file uploaded — a batch with zero successful
uploads produces no summary and no refresh. -/
theorem claim_C3 (s : DropSettings) (files : List DropFile) (tp : String)
    (res : Nat → Except String Unit) (htok : s.token ≠ "") :
    C3Spec s files tp res := by
  have hloop := handleDropLoop_count s tp res files 0 0
  refine ⟨?_, ?_, handleDropLoop_uploads s tp res files 0 0,
    handleDropLoop_oversized_notice s tp res files 0 0⟩
  · simp only [handleDrop]
    rw [if_neg htok, hloop]
    simp only [Nat.zero_add]
    by_cases hn : 0 < countUploads s res files 0
    · rw [if_pos hn, if_pos hn]
    · rw [if_neg hn, if_neg hn, List.append_nil]
  · simp only [handleDrop]
    rw [if_neg htok, hloop]
    simp only [Nat.zero_add]
    have hz : (handleDropLoop s tp res files 0 0).1.count DropEvent.refresh = 0 :=
      List.count_eq_zero.mpr (handleDropLoop_no_refresh s tp res files 0 0)
    by_cases hn : 0 < countUploads s res files 0
    · rw [if_pos hn, if_pos hn, List.count_append, hz]
      simp [List.count_cons]
    · rw [if_neg hn, if_neg hn, hz]

/-- Witness for C3 at a concrete batch of one oversized and one accepted
file. -/
theorem claim_C3_witness :
    ((⟨"tok", 1, false, "pfx"⟩ : DropSettings).token ≠ "") ∧
    C3Spec ⟨"tok", 1, false, "pfx"⟩ [⟨"big.png", 3 * 1024 * 1024⟩, ⟨"ok.png", 10⟩]
      "target" (fun _ => .ok ()) :=
  ⟨by decide, claim_C3 _ _ _ _ (by decide)⟩

/-- C4 counterexample: a failed refresh shows the failure placeholder even
though a prior successful listing is stored (treeRoot is present), refuting
the claim that the placeholder is shown only when there was no prior
successful listing. -/
theorem claim_C4_counterexample :
    (refresh "tok"
        ⟨[⟨"u", "a/x.png", 1, "t"⟩], some (.mk "a" [] []), [], []⟩
        (.error "boom")).2 = .emptyMsg "Failed to load: boom" ∧
    (⟨[⟨"u", "a/x.png", 1, "t"⟩], some (.mk "a" [] []), [], []⟩
      : ExplorerState).treeRoot ≠ none := by
  constructor
  · rfl
  · simp

/-- C4 (amended): if the list call of a refresh fails and a token is
configured, the stored blobs, tree, basePath and currentPath are all left
unchanged — no partial tree is installed — and the failure placeholder is
shown unconditionally, regardless of whether a prior successful listing
exists. -/
theorem claim_C4 (token : String) (st : ExplorerState) (msg : String)
    (htok : token ≠ "") :
    refresh token st (.error msg) = (st, .emptyMsg ("Failed to load: " ++ msg)) := by
  unfold refresh
  rw [if_neg htok]

/-- Witness for C4 at a concrete prior state. -/
theorem claim_C4_witness :
    (("tok" : String) ≠ "") ∧
    refresh "tok" ⟨[⟨"u", "a/x.png", 1, "t"⟩], some (.mk "a" [] []), ["a"], ["a"]⟩
        (.error "boom")
      = (⟨[⟨"u", "a/x.png", 1, "t"⟩], some (.mk "a" [] []), ["a"], ["a"]⟩,
         .emptyMsg "Failed to load: boom") :=
  ⟨by decide, claim_C4 "tok" _ "boom" (by decide)⟩

/-- C5: computeBasePath descends exactly through the chain of
single-child, file-less nodes, accumulating the entered child's name, and
stops at the first node with zero or more than one children or any files;
in particular a root with a single top-level folder that has two or more
children yields that folder's name as the sole segment, and a root with two
or more top-level folders yields the empty path. -/
theorem claim_C5 :
    (∀ (n : String) (c : TreeFolder),
      computeBasePath (.mk n [c] []) = c.name :: computeBasePath c) ∧
    (∀ (n : String) (cs : List TreeFolder) (fs : List BlobEntry),
      cs.length ≠ 1 ∨ fs ≠ [] → computeBasePath (.mk n cs fs) = []) ∧
    (∀ (n : String) (c : TreeFolder), 2 ≤ c.children.length →
      computeBasePath (.mk n [c] []) = [c.name]) ∧
    (∀ (n : String) (cs : List TreeFolder) (fs : List BlobEntry), 2 ≤ cs.length →
      computeBasePath (.mk n cs fs) = []) := by
  refine ⟨computeBasePath_single, fun n cs fs h => computeBasePath_stop h, ?_, ?_⟩
  · intro n c hc
    rw [computeBasePath_single]
    cases c with
    | mk m cs' fs' =>
      rw [computeBasePath_stop (Or.inl ?_)]
      simp only [TreeFolder.children_mk] at hc
      omega
  · intro n cs fs h
    exact computeBasePath_stop (Or.inl (by omega))

/-- Witness for C5 at concrete trees: a single wrapper folder with two
children, and a root with two top-level folders. -/
theorem claim_C5_witness :
    computeBasePath (.mk "" [.mk "a" [.mk "b" [] [], .mk "c" [] []] []] []) = ["a"] ∧
    computeBasePath (.mk "" [.mk "a" [] [], .mk "b" [] []] []) = [] :=
  ⟨claim_C5.2.2.1 "" (.mk "a" [.mk "b" [] [], .mk "c" [] []] []) (by decide),
   claim_C5.2.2.2 "" [.mk "a" [] [], .mk "b" [] []] [] (by decide)⟩

/-- C6: the destination pathname of an upload is the target folder path
joined with a slash to the (possibly slugified) filename when a non-empty
target path is given, and the configured base path joined with the filename
otherwise; for an editor upload from a note at folder/note.md the pathname
is the base path, the note's folder and the filename joined with slashes. -/
theorem claim_C6 :
    (∀ (s : DropSettings) (tp fn : String), tp ≠ "" →
      dropPathname s tp fn = tp ++ "/" ++ fn) ∧
    (∀ (s : DropSettings) (fn : String), s.basePfx ≠ "" → fn ≠ "" →
      dropPathname s "" fn = s.basePfx ++ "/" ++ fn) ∧
    (∀ pfx folder note fn : String, pfx ≠ "" → folder ≠ "" → fn ≠ "" →
      '/' ∉ note.data →
      buildBlobPathname pfx (folder ++ "/" ++ note) fn
        = pfx ++ "/" ++ folder ++ "/" ++ fn) := by
  refine ⟨?_, ?_, ?_⟩
  · intro s tp fn h
    simp only [dropPathname, if_pos h]
    exact joinPath_pair tp fn
  · intro s fn hb hf
    have h : ¬ (("" : String) ≠ "") := fun h => h rfl
    simp only [dropPathname, if_neg h]
    exact buildBlobPathname_empty_active hb hf
  · intro pfx folder note fn hp hfo hf hn
    exact buildBlobPathname_editor hp hfo hf hn

/-- Witness for C6 at concrete settings, target and note paths. -/
theorem claim_C6_witness :
    dropPathname ⟨"tok", 1, false, "pfx"⟩ "target/dir" "img.png"
      = "target/dir" ++ "/" ++ "img.png" ∧
    dropPathname ⟨"tok", 1, false, "pfx"⟩ "" "img.png" = "pfx" ++ "/" ++ "img.png" ∧
    buildBlobPathname "pfx" ("folder" ++ "/" ++ "note.md") "img.png"
      = "pfx" ++ "/" ++ "folder" ++ "/" ++ "img.png" :=
  ⟨claim_C6.1 ⟨"tok", 1, false, "pfx"⟩ "target/dir" "img.png" (by decide),
   claim_C6.2.1 ⟨"tok", 1, false, "pfx"⟩ "img.png" (by decide) (by decide),
   claim_C6.2.2 "pfx" "folder" "note.md" "img.png" (by decide) (by decide) (by decide)
     (by decide)⟩

/-- C7: buildTree applied to two permutations of the same list of objects
with pairwise-distinct pathnames yields literally identical trees, and the
resulting tree is everywhere sorted — children by name, files by full
pathname (building twice from the same input is the reflexive instance). -/
theorem claim_C7 {l₁ l₂ : List BlobEntry} (hp : l₁.Perm l₂)
    (hnd : (l₁.map BlobEntry.pathname).Nodup) :
    buildTree l₁ = buildTree l₂ ∧ SortedTree (buildTree l₁) :=
  ⟨buildTree_perm_eq hp hnd, sortedTree_buildTree l₁⟩

/-- Witness for C7 at a concrete pair of permuted listings. -/
theorem claim_C7_witness :
    ([(⟨"u1", "a/x.png", 1, "t"⟩ : BlobEntry), ⟨"u2", "a/y.png", 2, "t"⟩].Perm
       [⟨"u2", "a/y.png", 2, "t"⟩, ⟨"u1", "a/x.png", 1, "t"⟩] ∧
     ([(⟨"u1", "a/x.png", 1, "t"⟩ : BlobEntry), ⟨"u2", "a/y.png", 2, "t"⟩].map
        BlobEntry.pathname).Nodup) ∧
    (buildTree [⟨"u1", "a/x.png", 1, "t"⟩, ⟨"u2", "a/y.png", 2, "t"⟩]
       = buildTree [⟨"u2", "a/y.png", 2, "t"⟩, ⟨"u1", "a/x.png", 1, "t"⟩] ∧
     SortedTree (buildTree [⟨"u1", "a/x.png", 1, "t"⟩, ⟨"u2", "a/y.png", 2, "t"⟩])) :=
  ⟨⟨List.Perm.swap _ _ _, by decide⟩,
   claim_C7 (List.Perm.swap _ _ _) (by decide)⟩

/-- C8: slugify "Café Photo.PNG" is "cafe-photo.png"; in general, for every
filename whose last dot sits at a positive index, the result is the slug of
the base name (diacritics stripped, lowercased, non-alphanumeric runs
collapsed to single hyphens, edge hyphens trimmed) with the extension from
that dot on appended lowercased. -/
theorem claim_C8 :
    slugify "Café Photo.PNG" = "cafe-photo.png" ∧
    slugify " Déjà--Vu!.Jpg" = "deja-vu.jpg" ∧
    ∀ (s : String) (i : Nat), lastDotIdx s.data = some i → 0 < i →
      slugify s = String.mk (slugBody (s.data.take i) ++ (s.data.drop i).map lowerChar) := by
  refine ⟨by decide, by decide, ?_⟩
  intro s i h hi
  simp only [slugify, h, if_pos hi]

/-- Witness for C8 at a concrete filename with an extension. -/
theorem claim_C8_witness :
    (lastDotIdx ("Café Photo.PNG" : String).data = some 10 ∧ 0 < 10) ∧
    slugify "Café Photo.PNG"
      = String.mk (slugBody (("Café Photo.PNG" : String).data.take 10)
          ++ (("Café Photo.PNG" : String).data.drop 10).map lowerChar) :=
  ⟨⟨by decide, by decide⟩, claim_C8.2.2 "Café Photo.PNG" 10 (by decide) (by decide)⟩

/-- C9: countFiles of the root built from any listing equals the length of
the input list. -/
theorem claim_C9 (l : List BlobEntry) : countFiles (buildTree l) = l.length := by
  rw [countFiles_eq_length]
  exact (allFiles_buildTree l).length_eq

/-- C10: a filename whose only dot is its first character is treated as a
base name with no extension: slugify ".PNG" is "png" (the dot becomes a
hyphen and is trimmed, the apparent extension is not preserved), and in
general a last dot at index 0 makes the whole name go through the slug
transformation with nothing appended. -/
theorem claim_C10 :
    slugify ".PNG" = "png" ∧
    ∀ s : String, lastDotIdx s.data = some 0 → slugify s = String.mk (slugBody s.data) := by
  refine ⟨by decide, ?_⟩
  intro s h
  simp [slugify, h]

/-- Witness for C10 at the dotfile ".PNG". -/
theorem claim_C10_witness :
    lastDotIdx (".PNG" : String).data = some 0 ∧
    slugify ".PNG" = String.mk (slugBody (".PNG" : String).data) :=
  ⟨by decide, claim_C10.2 ".PNG" (by decide)⟩

end BlobUpload
